import Mathlib

/-!
# qDecoder `qEntry.c`: the linked list of name/value entries

A shallow embedding of `src/qEntry.c`.  The C functions work on a singly
linked chain of heap-allocated `Q_ENTRY` nodes, so the embedding keeps an
explicit heap: a partial map from addresses to nodes, threaded through every
function that writes to memory.

* A C string is the sequence of its characters before the terminating NUL and
  is represented by a `String`; copying a string (`strdup`) or adopting the
  caller's pointer stores the same characters in the node.
* The two strings of a node live and die with the node.  A `char *` argument
  that a function reads after it has freed strings of the list, the `value` of
  `qEntryAdd` and the `name` of `qEntryRemove`, is a `CStr`: a string outside
  the list, or a pointer to the name or to the value string of a node; reading
  a string that has been freed is a fault (`none`).  Every other `char *`
  argument is read only while the memory is as it was at the call and is given
  by its characters.
* A pointer is a natural number, `NULL` is `0`.  Reading or writing through
  `NULL` or through an address that is not allocated is a fault (`none`).
* `malloc` is not deterministic: the address it returns is a parameter
  (`fresh`) of `qEntryAdd`; the theorems assume that it is not `NULL` and not
  allocated, and nothing else.  Allocation is taken to succeed, as the code
  does not test the results of `malloc` and `strdup`.
* Every C loop is a recursive function with a fuel argument; running out of
  fuel is `none`.  On a well-formed (NULL-terminated) chain of `n` nodes every
  loop needs at most `n + 1` units.
* `int` is a 32-bit signed integer; signed overflow is undefined behaviour and
  is a fault (`none`).
* `qEntrySave` and `qEntryLoad` work on the memory and on the files, a map from
  file names to texts; a stream is identified with the name of its file.
* Functions that `qEntry.c` calls and that are defined in other files of the
  library are parameters of the functions that call them (`qStricmp`,
  `qURLencode`, `qURLdecode`, `qfDecoder`, the time string of `qGetGMTime`), or
  are modelled from the spec (`qfopen`).  The models of the line format and of
  the percent-encoding that the spec describes (`LoadKeyValueLines`,
  `PercentEncode`, `PercentDecode`) are used for the round trip of a saved file.
-/

namespace QDecoder

/-! ## C library primitives -/

/-- Character-wise comparison of two NUL-terminated strings, given by their
characters before the terminator: negative, zero or positive. -/
def strcmpAux : List Char → List Char → Int
  | [], [] => 0
  | [], _ :: _ => -1
  | _ :: _, [] => 1
  | a :: as, b :: bs =>
    if a.toNat < b.toNat then -1
    else if b.toNat < a.toNat then 1
    else strcmpAux as bs

/-- C library `strcmp`. -/
def strcmp (s1 s2 : String) : Int := strcmpAux s1.data s2.data

/-- Largest value of a C `int`. -/
def INT_MAX : Int := 2147483647

/-! ## Memory -/

/-- An address. -/
abbrev Ptr := Nat

/-- The null pointer. -/
def NULL : Ptr := 0

/-- The node type `Q_ENTRY` of `qDecoder.h`: `name`, `value` and the link
`next` to the following node. -/
structure Q_ENTRY where
  name : String
  value : String
  next : Ptr
  deriving DecidableEq

/-- The heap: the allocated `Q_ENTRY` nodes by address. -/
abbrev Heap := Ptr → Option Q_ENTRY

/-- Read the node a pointer points to; a fault on `NULL` and on an address that
is not allocated. -/
def load (h : Heap) (p : Ptr) : Option Q_ENTRY :=
  if p = NULL then none else h p

/-- Write a node at an address. -/
def store (h : Heap) (p : Ptr) (e : Q_ENTRY) : Heap :=
  fun q => if q = p then some e else h q

/-- C library `free` on a node. -/
def free (h : Heap) (p : Ptr) : Heap :=
  fun q => if q = p then none else h q

/-- A `char *` argument that a function reads after it has freed or replaced
strings of the list: either a string that lives outside the nodes of the list,
given by its characters, or a pointer to the `name` or to the `value` string of
the node at an address. -/
inductive CStr where
  | str (s : String)
  | nameOf (p : Ptr)
  | valueOf (p : Ptr)
  deriving DecidableEq

/-- The characters a `char *` argument points to.  The strings of a node are
freed with the node, so a pointer into a node that is not allocated (any more)
is a fault. -/
def CStr.read (h : Heap) : CStr → Option String
  | CStr.str s => some s
  | CStr.nameOf p => (load h p).map Q_ENTRY.name
  | CStr.valueOf p => (load h p).map Q_ENTRY.value

/-! ## qEntryAdd -/

/-- The loop of `qEntryAdd` for `flag == 1`: look for the first node with the
same name and replace its value.  `some (some (p, h'))` is the `return entries`
inside the loop, `some none` is falling out of the loop. -/
def qEntryAdd.replaceLoop (name : String) (value : CStr) (h : Heap) :
    Nat → Ptr → Option (Option (Ptr × Heap))
  | 0, _ => none
  | fuel + 1, entries =>
    if entries = NULL then some none
    else
      match load h entries with
      | none => none
      | some e =>
        if strcmp e.name name = 0 then
          -- free(entries->value): the string `entries->value` is gone, and
          -- strdup(value) on a `value` that points to it reads freed memory
          if value = CStr.valueOf entries then none
          else
            -- entries->value = strdup(value)
            match value.read h with
            | none => none
            | some v => some (some (entries, store h entries { e with value := v }))
        else qEntryAdd.replaceLoop name value h fuel e.next

/-- The loop `for (; first->next; first = first->next);` of `qEntryAdd`: walk
to the last node. -/
def qEntryAdd.lastLoop (h : Heap) : Nat → Ptr → Option Ptr
  | 0, _ => none
  | fuel + 1, first =>
    match load h first with
    | none => none
    | some e =>
      if e.next ≠ NULL then qEntryAdd.lastLoop h fuel e.next
      else some first

/-- The function `qEntryAdd(first, name, value, flag)`.  `fresh` is the address
`malloc` returns.  The result is the returned pointer and the heap after the
call.  `name` is read only while the memory is as it was at the call and is
given by its characters; `value` is read after `free(entries->value)` on the
replace path and is a `CStr`. -/
def qEntryAdd (h : Heap) (fresh : Ptr) (fuel : Nat) (first : Ptr)
    (name : String) (value : CStr) (flag : Int) : Option (Ptr × Heap) :=
  if strcmp name "" = 0 then some (NULL, h)
  else
    -- check same name
    match (if flag = 1 then qEntryAdd.replaceLoop name value h fuel first
           else some none) with
    | none => none
    | some (some r) => some r
    | some none =>
      -- new entry
      let entries := fresh
      -- flag 2 adopts the caller's strings, the other flags copy them: the
      -- node holds the same characters either way
      match value.read h with
      | none => none
      | some v =>
        let h1 :=
          if flag = 2 then store h entries { name := name, value := v, next := NULL }
          else store h entries { name := name, value := v, next := NULL }
        -- if first is not NULL, find the last entry, then make a link
        if first ≠ NULL then
          match qEntryAdd.lastLoop h1 fuel first with
          | none => none
          | some last =>
            match load h1 last with
            | none => none
            | some e => some (entries, store h1 last { e with next := entries })
        else some (entries, h1)

/-! ## qEntryRemove -/

/-- The loop of `qEntryRemove`, on the state `first`, `prev_entry`, `entries`
and the heap.  `name` is read in every turn, after the frees of the turns
before. -/
def qEntryRemove.loop (name : CStr) :
    Nat → Heap → Ptr → Ptr → Ptr → Option (Ptr × Heap)
  | 0, _, _, _, _ => none
  | fuel + 1, h, first, prev_entry, entries =>
    if entries = NULL then some (first, h)
    else
      match load h entries with
      | none => none
      | some e =>
        match name.read h with
        | none => none
        | some n =>
          if strcmp e.name n = 0 then
            let next := e.next
            -- remove the entry itself: free(entries->name), free(entries->value)
            -- and free(entries); the node and its two strings are gone
            let h1 := free h entries
            -- remove the entry link from the linked list
            if prev_entry = NULL then
              qEntryRemove.loop name fuel h1 next prev_entry next
            else
              match load h1 prev_entry with
              | none => none
              | some p =>
                qEntryRemove.loop name fuel (store h1 prev_entry { p with next := next })
                  first prev_entry next
          else
            qEntryRemove.loop name fuel h first entries e.next

/-- The function `qEntryRemove(first, name)`: the returned first-entry pointer
and the heap after the call. -/
def qEntryRemove (h : Heap) (fuel : Nat) (first : Ptr) (name : CStr) :
    Option (Ptr × Heap) :=
  match name.read h with
  | none => none
  | some n =>
    if strcmp n "" = 0 then some (first, h)
    else qEntryRemove.loop name fuel h first NULL first

/-! ## Lookups -/

/-- The loop of `qEntryValue`.  The inner option is the returned `char *`:
`none` is `NULL`. -/
def qEntryValue.loop (h : Heap) (name : String) : Nat → Ptr → Option (Option String)
  | 0, _ => none
  | fuel + 1, entries =>
    if entries = NULL then some none
    else
      match load h entries with
      | none => none
      | some e =>
        if strcmp name e.name = 0 then some (some e.value)
        else qEntryValue.loop h name fuel e.next

/-- The function `qEntryValue(first, name)`. -/
def qEntryValue (h : Heap) (fuel : Nat) (first : Ptr) (name : String) :
    Option (Option String) :=
  qEntryValue.loop h name fuel first

/-- The loop of `qEntryValueLast`, with the local variable `value`. -/
def qEntryValueLast.loop (h : Heap) (name : String) :
    Nat → Ptr → Option String → Option (Option String)
  | 0, _, _ => none
  | fuel + 1, entries, value =>
    if entries = NULL then some value
    else
      match load h entries with
      | none => none
      | some e =>
        if strcmp name e.name = 0 then qEntryValueLast.loop h name fuel e.next (some e.value)
        else qEntryValueLast.loop h name fuel e.next value

/-- The function `qEntryValueLast(first, name)`. -/
def qEntryValueLast (h : Heap) (fuel : Nat) (first : Ptr) (name : String) :
    Option (Option String) :=
  qEntryValueLast.loop h name fuel first none

/-- The loop of `qEntryNo`, with the counter `no`. -/
def qEntryNo.loop (h : Heap) (name : String) : Nat → Int → Ptr → Option Int
  | 0, _, _ => none
  | fuel + 1, no, entries =>
    if entries = NULL then some 0
    else
      match load h entries with
      | none => none
      | some e =>
        if strcmp name e.name = 0 then some no
        else if no + 1 > INT_MAX then none
        else qEntryNo.loop h name fuel (no + 1) e.next

/-- The function `qEntryNo(first, name)`. -/
def qEntryNo (h : Heap) (fuel : Nat) (first : Ptr) (name : String) : Option Int :=
  qEntryNo.loop h name fuel 1 first

/-! ## qEntryReverse -/

/-- The loop of `qEntryReverse`, on the state `entries`, `last` and the heap. -/
def qEntryReverse.loop : Nat → Heap → Ptr → Ptr → Option (Ptr × Heap)
  | 0, _, _, _ => none
  | fuel + 1, h, entries, last =>
    if entries = NULL then some (last, h)
    else
      match load h entries with
      | none => none
      | some e =>
        let next := e.next
        qEntryReverse.loop fuel (store h entries { e with next := last }) next entries

/-- The function `qEntryReverse(first)`: the returned first-entry pointer and
the heap after the call. -/
def qEntryReverse (h : Heap) (fuel : Nat) (first : Ptr) : Option (Ptr × Heap) :=
  qEntryReverse.loop fuel h first NULL

/-! ## The list a pointer denotes -/

/-- One entry of a list as the caller sees it: the address of its node, its
name and its value. -/
structure Entry where
  addr : Ptr
  name : String
  value : String
  deriving DecidableEq

/-- The chain of nodes that starts at `p` holds exactly the entries `l`, in
this order, and its last link is `q`. -/
def LSeg (h : Heap) (q : Ptr) : Ptr → List Entry → Prop
  | p, [] => p = q
  | p, x :: l =>
    p = x.addr ∧ p ≠ NULL ∧ ∃ nx, h p = some ⟨x.name, x.value, nx⟩ ∧ LSeg h q nx l

/-- The pointer `first` is a well-formed list holding exactly the entries `l`:
a chain of allocated nodes that ends in `NULL`. -/
def IsList (h : Heap) (first : Ptr) (l : List Entry) : Prop := LSeg h NULL first l

/-- The heap of the examples: `user=alice` at address 1, `role=admin` at
address 2 and `role=root` at address 3. -/
def exampleHeap : Heap := fun p =>
  if p = 1 then some ⟨"user", "alice", 2⟩
  else if p = 2 then some ⟨"role", "admin", 3⟩
  else if p = 3 then some ⟨"role", "root", NULL⟩
  else none

/-- The entries of `exampleHeap`. -/
def exampleList : List Entry :=
  [⟨1, "user", "alice"⟩, ⟨2, "role", "admin"⟩, ⟨3, "role", "root"⟩]

/-! ## Integer lookups -/

/-- Smallest value of a C `int`. -/
def INT_MIN : Int := -2147483648

/-- C library `isspace` in the C locale: space, and the controls from
horizontal tab to carriage return. -/
def isspace (c : Char) : Bool := c.toNat = 32 || (9 ≤ c.toNat && c.toNat ≤ 13)

/-- C library `isdigit`. -/
def isdigit (c : Char) : Bool := 48 ≤ c.toNat && c.toNat ≤ 57

/-- The optional sign in front of the digits: whether it is a minus, and the
characters after it. -/
def atoi.sign : List Char → Bool × List Char
  | [] => (false, [])
  | c :: rest =>
    if c = '-' then (true, rest)
    else if c = '+' then (false, rest)
    else (false, c :: rest)

/-- The decimal digits at the start of the characters, read as a number on top
of the digits `acc` already read. -/
def atoi.digits : List Char → Nat → Nat
  | [], acc => acc
  | c :: cs, acc =>
    if isdigit c then atoi.digits cs (10 * acc + (c.toNat - 48)) else acc

/-- C library `atoi`: skip white space, take an optional sign and then the
decimal digits, as many as there are; without digits the result is 0.  A result
that does not fit an `int` is undefined behaviour, a fault (`none`). -/
def atoi (nptr : String) : Option Int :=
  let s := atoi.sign (nptr.data.dropWhile isspace)
  let n : Int := atoi.digits s.2 0
  let v : Int := if s.1 then -n else n
  if INT_MIN ≤ v ∧ v ≤ INT_MAX then some v else none

/-- The loop of `qEntryValueNoCase`.  The comparison `qStricmp` of
`qInternal.h` is not part of this file and is a parameter. -/
def qEntryValueNoCase.loop (qStricmp : String → String → Int) (h : Heap) (name : String) :
    Nat → Ptr → Option (Option String)
  | 0, _ => none
  | fuel + 1, entries =>
    if entries = NULL then some none
    else
      match load h entries with
      | none => none
      | some e =>
        if qStricmp name e.name = 0 then some (some e.value)
        else qEntryValueNoCase.loop qStricmp h name fuel e.next

/-- The function `qEntryValueNoCase(first, name)`. -/
def qEntryValueNoCase (qStricmp : String → String → Int) (h : Heap) (fuel : Nat)
    (first : Ptr) (name : String) : Option (Option String) :=
  qEntryValueNoCase.loop qStricmp h name fuel first

/-- The function `qEntryiValue(first, name)`. -/
def qEntryiValue (h : Heap) (fuel : Nat) (first : Ptr) (name : String) : Option Int :=
  match qEntryValue h fuel first name with
  | none => none
  | some none => some 0
  | some (some str) => atoi str

/-- The function `qEntryiValueLast(first, name)`. -/
def qEntryiValueLast (h : Heap) (fuel : Nat) (first : Ptr) (name : String) : Option Int :=
  match qEntryValueLast h fuel first name with
  | none => none
  | some none => some 0
  | some (some str) => atoi str

/-- The function `qEntryiValueNoCase(first, name)`. -/
def qEntryiValueNoCase (qStricmp : String → String → Int) (h : Heap) (fuel : Nat)
    (first : Ptr) (name : String) : Option Int :=
  match qEntryValueNoCase qStricmp h fuel first name with
  | none => none
  | some none => some 0
  | some (some str) => atoi str

/-- The spec's "numeric" value, one that as a whole is a base-10 integer: an
optional sign followed by one or more decimal digits, and nothing else.  It is
written from the spec's words, without `atoi`. -/
def Numeric (v : String) : Bool :=
  match v.data with
  | [] => false
  | c :: cs =>
    if c = '-' ∨ c = '+' then !cs.isEmpty && cs.all isdigit
    else (c :: cs).all isdigit

/-- The character of a decimal digit. -/
def digitChar (d : Nat) : Char := Char.ofNat (48 + d)

/-- The decimal numeral with the given digits, most significant first. -/
def numeral (ds : List Nat) : String := String.mk (ds.map digitChar)

/-- The integer that a sign (none, `-` or `+`) and decimal digits, most
significant first, write in base 10; no digits write 0. -/
def decimalValue (sgn : List Char) (ds : List Nat) : Int :=
  if sgn = ['-'] then -((Nat.ofDigits 10 ds.reverse : Nat) : Int)
  else ((Nat.ofDigits 10 ds.reverse : Nat) : Int)

/-- C library `tolower` in the C locale. -/
def tolower (c : Char) : Char :=
  if 65 ≤ c.toNat ∧ c.toNat ≤ 90 then Char.ofNat (c.toNat + 32) else c

/-- Modelled from the spec: `qStricmp`, declared in `qInternal.h` and defined
outside `qEntry.c`, is the spec's primitive `CaseInsensitiveCompare`, a
locale-agnostic comparison under ASCII case folding: `strcmp` on the two
strings with their ASCII capital letters made small.  The functions of
`qEntry.c` take the comparison as a parameter; this model is the comparison of
the examples. -/
def CaseInsensitiveCompare (s1 s2 : String) : Int :=
  strcmpAux (s1.data.map tolower) (s2.data.map tolower)

/-- The heap of the integer examples: `port=42` at address 1 and `host=abc` at
address 2. -/
def numberHeap : Heap := fun p =>
  if p = 1 then some ⟨"port", "42", 2⟩
  else if p = 2 then some ⟨"host", "abc", NULL⟩
  else none

/-- The entries of `numberHeap`. -/
def numberList : List Entry := [⟨1, "port", "42"⟩, ⟨2, "host", "abc"⟩]

/-- The heap of the example of a value that starts with digits: `size=12abc` at
address 1. -/
def mixedHeap : Heap := fun p =>
  if p = 1 then some ⟨"size", "12abc", NULL⟩ else none

/-! ## Files -/

/-- The file system: the contents of the files by name. -/
abbrev FileSystem := String → Option String

/-- The state `qEntrySave` and `qEntryLoad` work on: the memory and the
files. -/
structure World where
  heap : Heap
  files : FileSystem

/-- Modelled from the spec: `qfopen(filename, "w")`, defined outside
`qEntry.c`, is the spec's primitive `OpenForWrite(path) -> Handle | IOError`.
Whether the destination can be opened is given by `canOpen`; when it can, the
file is created or emptied, and the stream is identified with the name of the
file it writes to; when it cannot, the result is `NULL` (`none`) and no file is
touched. -/
def qfopen (canOpen : String → Bool) (fs : FileSystem) (filename : String) :
    Option (String × FileSystem) :=
  if canOpen filename then some (filename, fun p => if p = filename then some "" else fs p)
  else none

/-- C library `fprintf`, with the conversions already done: the text is added
at the end of the file of the stream. -/
def fprintf (fs : FileSystem) (fp : String) (text : String) : FileSystem :=
  fun p => if p = fp then some ((fs p).getD "" ++ text) else fs p

/-- The line `qEntrySave` writes for a node: `name=value`, the value encoded
with `qURLencode` when `encodevalue` is true. -/
def qEntrySave.line (qURLencode : String → String) (encodevalue : Bool) (name value : String) :
    String :=
  name ++ "=" ++ (if encodevalue = true then qURLencode value else value) ++ "\n"

/-- The loop of `qEntrySave`, on the state `first`, `amount` and the files.  The
encoder `qURLencode` is defined outside `qEntry.c` and is a parameter. -/
def qEntrySave.loop (qURLencode : String → String) (h : Heap) (fp : String)
    (encodevalue : Bool) : Nat → FileSystem → Ptr → Int → Option (Int × FileSystem)
  | 0, _, _, _ => none
  | fuel + 1, fs, first, amount =>
    if first = NULL then some (amount, fs)
    else
      match load h first with
      | none => none
      | some e =>
        let fs1 := fprintf fs fp (qEntrySave.line qURLencode encodevalue e.name e.value)
        if amount + 1 > INT_MAX then none
        else qEntrySave.loop qURLencode h fp encodevalue fuel fs1 e.next (amount + 1)

/-- The function `qEntrySave(first, filename, encodevalue)`.  `gmt` is the time
string that `qGetGMTime`, defined outside `qEntry.c`, leaves in the buffer
`gmt`.  The result is the returned number and the state after the call. -/
def qEntrySave (qURLencode : String → String) (gmt : String) (canOpen : String → Bool)
    (w : World) (fuel : Nat) (first : Ptr) (filename : String) (encodevalue : Bool) :
    Option (Int × World) :=
  match qfopen canOpen w.files filename with
  | none => some (-1, w)
  | some (fp, fs0) =>
    let fs1 := fprintf fs0 fp ("# automatically generated by qDecoder at " ++ gmt ++ ".\n")
    let fs2 := fprintf fs1 fp ("# " ++ filename ++ "\n")
    match qEntrySave.loop qURLencode w.heap fp encodevalue fuel fs2 first 0 with
    | none => none
    | some (amount, fs3) => some (amount, { w with files := fs3 })

/-- The loop of `qEntryLoad`: decode the value of every node in place.  The
decoder `qURLdecode` is defined outside `qEntry.c` and is a parameter. -/
def qEntryLoad.loop (qURLdecode : String → String) : Nat → Heap → Ptr → Option Heap
  | 0, _, _ => none
  | fuel + 1, h, entries =>
    if entries = NULL then some h
    else
      match load h entries with
      | none => none
      | some e =>
        qEntryLoad.loop qURLdecode fuel
          (store h entries { e with value := qURLdecode e.value }) e.next

/-- The function `qEntryLoad(filename, decodevalue)`.  The parser `qfDecoder` is
defined outside `qEntry.c` and is a parameter: from the state and the file name
it gives the pointer it returns and the state it leaves.  The result is the
returned first-entry pointer and the state after the call. -/
def qEntryLoad (qfDecoder : World → String → Ptr × World) (qURLdecode : String → String)
    (w : World) (fuel : Nat) (filename : String) (decodevalue : Bool) :
    Option (Ptr × World) :=
  let first := (qfDecoder w filename).1
  let w1 := (qfDecoder w filename).2
  if first = NULL then some (NULL, w1)
  else if decodevalue = true then
    match qEntryLoad.loop qURLdecode fuel w1.heap first with
    | none => none
    | some h2 => some (first, { w1 with heap := h2 })
  else some (first, w1)

/-! ## The external primitives of the persistence format, from the spec -/

/-- Split a text into its lines, at every newline. -/
def splitLines : List Char → List (List Char)
  | [] => [[]]
  | c :: cs =>
    if c = '\n' then [] :: splitLines cs
    else
      match splitLines cs with
      | [] => [[c]]
      | line :: rest => (c :: line) :: rest

/-- One line of the file: nothing for an empty line, a line starting with `#`,
a line without `=` and a line with nothing before the `=`; otherwise the name
before the first `=` and the value after it. -/
def parseLine (line : List Char) : Option (String × String) :=
  match line with
  | [] => none
  | c :: _ =>
    if c = '#' then none
    else
      match line.dropWhile (fun d => d ≠ '=') with
      | [] => none
      | _ :: value =>
        if line.takeWhile (fun d => d ≠ '=') = [] then none
        else some (String.mk (line.takeWhile (fun d => d ≠ '=')), String.mk value)

/-- Modelled from the spec: the name/value pairs that `qfDecoder`, the spec's
primitive `LoadKeyValueLines` defined outside `qEntry.c`, reads from the text
of a file: "comment-aware `name=value` file parser", one entry per line
`<name>=<value>`, "lines beginning with `#` ... are comments (ignored on
load)"; an entry never has the empty name. -/
def LoadKeyValueLines (content : String) : List (String × String) :=
  (splitLines content.data).filterMap parseLine

/-- The hexadecimal digit of a number below 16. -/
def hexDigit (n : Nat) : Char :=
  if n < 10 then Char.ofNat (48 + n) else Char.ofNat (55 + n)

/-- The number a hexadecimal digit stands for. -/
def hexValue (c : Char) : Option Nat :=
  if 48 ≤ c.toNat ∧ c.toNat ≤ 57 then some (c.toNat - 48)
  else if 65 ≤ c.toNat ∧ c.toNat ≤ 70 then some (c.toNat - 55)
  else if 97 ≤ c.toNat ∧ c.toNat ≤ 102 then some (c.toNat - 87)
  else none

/-- The encoding of one character: letters, digits and `-`, `_`, `.`, `~` as
they are, any other byte as `%XX`.  A character above 255 is no byte, a C
string does not hold one, and it is left as it is. -/
def PercentEncode.char (c : Char) : List Char :=
  if c.isAlphanum || c = '-' || c = '_' || c = '.' || c = '~' || decide (256 ≤ c.toNat)
  then [c]
  else ['%', hexDigit (c.toNat / 16 % 16), hexDigit (c.toNat % 16)]

/-- Modelled from the spec: `qURLencode`, the spec's primitive `PercentEncode`
defined outside `qEntry.c`: "space, reserved, and non-printable bytes escaped
as `%XX`", the characters of a string being bytes. -/
def PercentEncode (s : String) : String :=
  String.mk (s.data.flatMap PercentEncode.char)

/-- Decoding of the characters of a string: `%XX` with two hexadecimal digits
is the byte they write, every other character is itself. -/
def PercentDecode.chars : List Char → List Char
  | [] => []
  | [c] => [c]
  | [c, d] => [c, d]
  | c :: a :: b :: rest =>
    if c = '%' then
      match hexValue a, hexValue b with
      | some x, some y => Char.ofNat (16 * x + y) :: PercentDecode.chars rest
      | _, _ => c :: PercentDecode.chars (a :: b :: rest)
    else c :: PercentDecode.chars (a :: b :: rest)

/-- Modelled from the spec: `qURLdecode`, the spec's primitive `PercentDecode`
defined outside `qEntry.c`. -/
def PercentDecode (s : String) : String :=
  String.mk (PercentDecode.chars s.data)

/-- The name/value pairs of a list of entries, in order. -/
def pairs (l : List Entry) : List (String × String) := l.map (fun x => (x.name, x.value))

/-- The state of the persistence examples: the example list in memory and no
file. -/
def exampleWorld : World := { heap := exampleHeap, files := fun _ => none }

/-- A list in memory from name/value pairs, the nodes at the addresses `base`,
`base + 1`, and so on. -/
def buildList (h : Heap) : Ptr → List (String × String) → Ptr × Heap
  | _, [] => (NULL, h)
  | base, (name, value) :: rest =>
    (base, store (buildList h (base + 1) rest).2 base
      ⟨name, value, (buildList h (base + 1) rest).1⟩)

/-- Modelled from the spec: `qfDecoder`, the spec's primitive
`LoadKeyValueLines(path) -> EntryList | NotFound` defined outside `qEntry.c`,
when its nodes are allocated from the address `base` on: the list of the pairs
read from the file, and `NULL` when the file cannot be read.  The functions of
`qEntry.c` take the parser as a parameter; this model is the parser of the
examples. -/
def qfDecoderAt (base : Ptr) (w : World) (filename : String) : Ptr × World :=
  match w.files filename with
  | none => (NULL, w)
  | some content =>
    ((buildList w.heap base (LoadKeyValueLines content)).1,
      { w with heap := (buildList w.heap base (LoadKeyValueLines content)).2 })

/-- The state of the round-trip example: `user=alice` at address 1 and `x=a b`
at address 2, and no file. -/
def spaceWorld : World :=
  { heap := fun p =>
      if p = 1 then some ⟨"user", "alice", 2⟩
      else if p = 2 then some ⟨"x", "a b", NULL⟩
      else none
    files := fun _ => none }

/-- The entries of `spaceWorld`. -/
def spaceList : List Entry := [⟨1, "user", "alice"⟩, ⟨2, "x", "a b"⟩]

/-- A state with one entry, at address 1, and no file. -/
def oneEntryWorld (name value : String) : World :=
  { heap := fun p => if p = 1 then some ⟨name, value, NULL⟩ else none
    files := fun _ => none }

/-- A state with one entry whose name has a newline: the name `a`, newline,
`b` with the value `c`. -/
def newlineWorld : World := oneEntryWorld "a\nb" "c"

/-- The time string of the examples. -/
def exampleGMT : String := "Thu, 01 Jan 1970 00:00:00 GMT"

/-- What the line format of the spec reads from the file that `qEntrySave`
writes, with encoded values: the pairs, or nothing when the call fails or
leaves no file. -/
def savedPairs (gmt : String) (canOpen : String → Bool) (w : World) (fuel : Nat)
    (first : Ptr) (filename : String) : Option (List (String × String)) :=
  (qEntrySave PercentEncode gmt canOpen w fuel first filename true).bind
    (fun r => (r.2.files filename).map LoadKeyValueLines)

/-! ## Basic facts: strings and memory -/

theorem strcmpAux_eq_zero_iff (a b : List Char) : strcmpAux a b = 0 ↔ a = b := by
  induction a generalizing b with
  | nil => cases b <;> simp [strcmpAux]
  | cons x xs ih =>
    cases b with
    | nil => simp [strcmpAux]
    | cons y ys =>
      simp only [strcmpAux, List.cons.injEq]
      split_ifs with h1 h2
      · simp; intro hxy; subst hxy; omega
      · simp; intro hxy; subst hxy; omega
      · have hxy : x = y := by
          apply Char.ext
          apply UInt32.ext
          have : x.toNat = y.toNat := by omega
          exact this
        simp [hxy, ih]

theorem strcmp_eq_zero_iff (a b : String) : strcmp a b = 0 ↔ a = b := by
  unfold strcmp
  rw [strcmpAux_eq_zero_iff]
  constructor
  · intro h; cases a; cases b; simp_all
  · intro h; rw [h]

theorem strcmp_empty_iff (name : String) : strcmp name "" = 0 ↔ name = "" :=
  strcmp_eq_zero_iff name ""

theorem load_eq_of_ne_null {h : Heap} {p : Ptr} (hp : p ≠ NULL) : load h p = h p := by
  simp [load, hp]

theorem store_same (h : Heap) (p : Ptr) (e : Q_ENTRY) : store h p e p = some e := by
  simp [store]

theorem store_other (h : Heap) {p q : Ptr} (e : Q_ENTRY) (hq : q ≠ p) :
    store h p e q = h q := by
  simp [store, hq]

theorem free_other (h : Heap) {p q : Ptr} (hq : q ≠ p) : free h p q = h q := by
  simp [free, hq]

theorem CStr_read_str (h : Heap) (s : String) : (CStr.str s).read h = some s := rfl

/-- Freeing a node leaves readable every string that is not one of its own. -/
theorem CStr_read_free (h : Heap) {p : Ptr} {c : CStr} (hn : c ≠ CStr.nameOf p)
    (hv : c ≠ CStr.valueOf p) : c.read (free h p) = c.read h := by
  cases c with
  | str s => rfl
  | nameOf q =>
    have hq : q ≠ p := fun e => hn (by rw [e])
    simp [CStr.read, load, free, hq]
  | valueOf q =>
    have hq : q ≠ p := fun e => hv (by rw [e])
    simp [CStr.read, load, free, hq]

/-- Changing the link of a node leaves every string as it is. -/
theorem CStr_read_store_next (h : Heap) {p : Ptr} {e : Q_ENTRY} (hp : h p = some e)
    (nx : Ptr) (c : CStr) : c.read (store h p ⟨e.name, e.value, nx⟩) = c.read h := by
  cases c with
  | str s => rfl
  | nameOf q =>
    by_cases hq : q = p
    · subst hq
      by_cases hnull : q = NULL <;> simp [CStr.read, load, store, hp, hnull]
    · simp [CStr.read, load, store, hq]
  | valueOf q =>
    by_cases hq : q = p
    · subst hq
      by_cases hnull : q = NULL <;> simp [CStr.read, load, store, hp, hnull]
    · simp [CStr.read, load, store, hq]

/-! ## Basic facts: chains -/

theorem LSeg_nil {h : Heap} {q p : Ptr} : LSeg h q p [] ↔ p = q := Iff.rfl

theorem LSeg_cons {h : Heap} {q p : Ptr} {x : Entry} {l : List Entry} :
    LSeg h q p (x :: l) ↔
      p = x.addr ∧ p ≠ NULL ∧ ∃ nx, h p = some ⟨x.name, x.value, nx⟩ ∧ LSeg h q nx l :=
  Iff.rfl

/-- A chain only depends on the nodes it goes through. -/
theorem LSeg_frame {h h' : Heap} {q : Ptr} :
    ∀ {l : List Entry} {p : Ptr},
      (∀ x ∈ l, h' x.addr = h x.addr) → LSeg h q p l → LSeg h' q p l
  | [], _, _, hs => hs
  | x :: l, p, hag, ⟨hp, hn, nx, hx, hrest⟩ => by
    refine ⟨hp, hn, nx, ?_, LSeg_frame (fun y hy => hag y (List.mem_cons_of_mem _ hy)) hrest⟩
    have := hag x (List.mem_cons_self _ _)
    rw [hp, this, ← hp]
    exact hx

theorem LSeg_append {h : Heap} {q : Ptr} {l2 : List Entry} :
    ∀ {l1 : List Entry} {p : Ptr},
      LSeg h q p (l1 ++ l2) ↔ ∃ m, LSeg h m p l1 ∧ LSeg h q m l2
  | [], p => by
    constructor
    · intro hs; exact ⟨p, rfl, hs⟩
    · rintro ⟨m, hm, hs⟩
      rw [LSeg_nil] at hm
      rw [hm]; exact hs
  | x :: l1, p => by
    simp only [List.cons_append, LSeg_cons]
    constructor
    · rintro ⟨hp, hn, nx, hx, hrest⟩
      obtain ⟨m, h1, h2⟩ := LSeg_append.mp hrest
      exact ⟨m, ⟨hp, hn, nx, hx, h1⟩, h2⟩
    · rintro ⟨m, ⟨hp, hn, nx, hx, h1⟩, h2⟩
      exact ⟨hp, hn, nx, hx, LSeg_append.mpr ⟨m, h1, h2⟩⟩

theorem IsList_nil {h : Heap} {p : Ptr} : IsList h p [] ↔ p = NULL := Iff.rfl

theorem IsList_cons {h : Heap} {p : Ptr} {x : Entry} {l : List Entry} :
    IsList h p (x :: l) ↔
      p = x.addr ∧ p ≠ NULL ∧ ∃ nx, h p = some ⟨x.name, x.value, nx⟩ ∧ IsList h nx l :=
  Iff.rfl

/-- The null pointer is the empty list and nothing else. -/
theorem IsList_null {h : Heap} {l : List Entry} (hl : IsList h NULL l) : l = [] := by
  cases l with
  | nil => rfl
  | cons x l => exact absurd rfl hl.2.1

/-- A pointer denotes at most one list. -/
theorem IsList_unique {h : Heap} :
    ∀ {l1 l2 : List Entry} {p : Ptr}, IsList h p l1 → IsList h p l2 → l1 = l2
  | [], [], _, _, _ => rfl
  | [], _ :: _, _, h1, h2 => absurd (IsList_nil.mp h1) h2.2.1
  | _ :: _, [], _, h1, h2 => absurd (IsList_nil.mp h2) h1.2.1
  | x :: l1, y :: l2, p, ⟨hp1, _, nx1, hx1, hr1⟩, ⟨hp2, _, nx2, hx2, hr2⟩ => by
    rw [hx1] at hx2
    simp only [Option.some.injEq, Q_ENTRY.mk.injEq] at hx2
    obtain ⟨hn, hv, hnx⟩ := hx2
    subst hnx
    have hxy : x = y := by
      cases x; cases y
      simp only [Entry.mk.injEq]
      exact ⟨hp1.symm.trans hp2, hn, hv⟩
    rw [hxy, IsList_unique hr1 hr2]

/-- No node occurs twice in a well-formed list. -/
theorem IsList_head_not_mem {h : Heap} {p : Ptr} {x : Entry} {l : List Entry}
    (hl : IsList h p (x :: l)) : ∀ y ∈ l, y.addr ≠ x.addr := by
  intro y hy hxy
  obtain ⟨l1, l2, rfl⟩ := List.append_of_mem hy
  obtain ⟨hp, _, nx, _, hrest⟩ := hl
  obtain ⟨m, _, h2⟩ := LSeg_append.mp hrest
  have hm : m = p := by rw [h2.1, hxy, hp]
  rw [hm] at h2
  have hl' : IsList h p (x :: (l1 ++ y :: l2)) := by
    refine ⟨hp, ‹_›, nx, ‹_›, hrest⟩
  have := congrArg List.length (IsList_unique h2 hl')
  simp at this
  omega

theorem IsList_tail {h : Heap} {p : Ptr} {x : Entry} {l : List Entry}
    (hl : IsList h p (x :: l)) : ∃ nx, h x.addr = some ⟨x.name, x.value, nx⟩ ∧ IsList h nx l := by
  obtain ⟨hp, _, nx, hx, hrest⟩ := hl
  exact ⟨nx, hp ▸ hx, hrest⟩

theorem IsList_nodup {h : Heap} :
    ∀ {l : List Entry} {p : Ptr}, IsList h p l → (l.map Entry.addr).Nodup
  | [], _, _ => List.nodup_nil
  | x :: l, _, hl => by
    obtain ⟨nx, _, hrest⟩ := IsList_tail hl
    rw [List.map_cons, List.nodup_cons]
    refine ⟨?_, IsList_nodup hrest⟩
    intro hmem
    obtain ⟨y, hy, hyx⟩ := List.mem_map.mp hmem
    exact IsList_head_not_mem hl y hy hyx

/-- Every node of a well-formed list is allocated and not at `NULL`. -/
theorem LSeg_mem {h : Heap} {q : Ptr} :
    ∀ {l : List Entry} {p : Ptr}, LSeg h q p l →
      ∀ x ∈ l, x.addr ≠ NULL ∧ ∃ nx, h x.addr = some ⟨x.name, x.value, nx⟩
  | [], _, _, x, hx => by simp at hx
  | y :: l, p, ⟨hp, hn, nx, hy, hrest⟩, x, hx => by
    rcases List.mem_cons.mp hx with rfl | hx
    · exact ⟨hp ▸ hn, nx, hp ▸ hy⟩
    · exact LSeg_mem hrest x hx

/-! ## The lookups compute on the denoted list -/

/-- The loop of `qEntryValue` finds the first entry with the name. -/
theorem qEntryValue_loop_eq {h : Heap} (name : String) :
    ∀ {l : List Entry} {p : Ptr} {fuel : Nat}, IsList h p l → l.length < fuel →
      qEntryValue.loop h name fuel p
        = some ((l.find? (fun x => x.name = name)).map Entry.value)
  | _, _, 0, _, hf => absurd hf (Nat.not_lt_zero _)
  | [], p, fuel + 1, hl, _ => by
    have hp : p = NULL := hl
    simp [qEntryValue.loop, hp]
  | x :: l, p, fuel + 1, hl, hf => by
    obtain ⟨hp, hn, nx, hx, hrest⟩ := hl
    have hf' : l.length < fuel := by simpa using hf
    have ih := qEntryValue_loop_eq name hrest hf'
    simp only [qEntryValue.loop, hn, if_false, load_eq_of_ne_null hn, hx, strcmp_eq_zero_iff]
    by_cases hname : x.name = name
    · simp [hname]
    · have hname' : ¬ name = x.name := fun e => hname e.symm
      simp [hname, hname', ih]

/-- The loop of `qEntryValueLast` keeps the value of the last entry with the
name, and its initial `value` when there is none. -/
theorem qEntryValueLast_loop_eq {h : Heap} (name : String) :
    ∀ {l : List Entry} {p : Ptr} {fuel : Nat} {acc : Option String},
      IsList h p l → l.length < fuel →
      qEntryValueLast.loop h name fuel p acc
        = some (((l.reverse.find? (fun x => x.name = name)).map Entry.value).or acc)
  | _, _, 0, _, _, hf => absurd hf (Nat.not_lt_zero _)
  | [], p, fuel + 1, acc, hl, _ => by
    have hp : p = NULL := hl
    simp [qEntryValueLast.loop, hp]
  | x :: l, p, fuel + 1, acc, hl, hf => by
    obtain ⟨hp, hn, nx, hx, hrest⟩ := hl
    have hf' : l.length < fuel := by simpa using hf
    simp only [qEntryValueLast.loop, hn, if_false, load_eq_of_ne_null hn, hx,
      strcmp_eq_zero_iff]
    by_cases hname : x.name = name
    · rw [if_pos hname.symm, qEntryValueLast_loop_eq name hrest hf']
      cases hfind : l.reverse.find? (fun x => decide (x.name = name)) <;>
        simp [hfind, hname]
    · have hname' : ¬ name = x.name := fun e => hname e.symm
      rw [if_neg hname', qEntryValueLast_loop_eq name hrest hf']
      cases hfind : l.reverse.find? (fun x => decide (x.name = name)) <;>
        simp [hfind, hname]

/-- The loop of `qEntryNo` counts up to the first entry with the name. -/
theorem qEntryNo_loop_eq {h : Heap} (name : String) :
    ∀ {l : List Entry} {p : Ptr} {fuel : Nat} {no : Int},
      IsList h p l → l.length < fuel → no + l.length ≤ INT_MAX →
      qEntryNo.loop h name fuel no p
        = some (if l.findIdx (fun x => x.name = name) < l.length
            then no + l.findIdx (fun x => x.name = name) else 0)
  | _, _, 0, _, _, hf, _ => absurd hf (Nat.not_lt_zero _)
  | [], p, fuel + 1, no, hl, _, _ => by
    have hp : p = NULL := hl
    simp [qEntryNo.loop, hp]
  | x :: l, p, fuel + 1, no, hl, hf, hno => by
    obtain ⟨hp, hn, nx, hx, hrest⟩ := hl
    have hf' : l.length < fuel := by simpa using hf
    have hno' : (no + 1) + l.length ≤ INT_MAX := by
      simp only [List.length_cons, Nat.cast_add, Nat.cast_one] at hno
      omega
    have ih := qEntryNo_loop_eq name hrest hf' hno'
    simp only [qEntryNo.loop, hn, if_false, load_eq_of_ne_null hn, hx, strcmp_eq_zero_iff]
    by_cases hname : x.name = name
    · simp [hname, List.findIdx_cons]
    · have hname' : ¬ name = x.name := fun e => hname e.symm
      have hov : ¬ no + 1 > INT_MAX := by
        have : (0 : Int) ≤ (l.length : Int) := Int.natCast_nonneg _
        omega
      rw [if_neg hname', if_neg hov, ih]
      simp only [List.findIdx_cons, hname, decide_False, cond_false, List.length_cons,
        Nat.add_lt_add_iff_right, Nat.cast_add, Nat.cast_one]
      by_cases hlt : l.findIdx (fun x => decide (x.name = name)) < l.length
      · rw [if_pos hlt, if_pos hlt]; congr 1; omega
      · rw [if_neg hlt, if_neg hlt]

/-! ## qEntryReverse on the denoted list -/

/-- The loop of `qEntryReverse` moves the nodes of `entries` one by one in front
of `last`. -/
theorem qEntryReverse_loop_eq :
    ∀ {l acc : List Entry} {h : Heap} {entries last : Ptr} {fuel : Nat},
      IsList h entries l → IsList h last acc →
      (∀ x ∈ l, ∀ y ∈ acc, x.addr ≠ y.addr) → l.length < fuel →
      ∃ r h', qEntryReverse.loop fuel h entries last = some (r, h') ∧
        IsList h' r (l.reverse ++ acc) ∧
        (∀ a, (∀ x ∈ l, x.addr ≠ a) → h' a = h a)
  | _, _, _, _, _, 0, _, _, _, hf => absurd hf (Nat.not_lt_zero _)
  | [], acc, h, entries, last, fuel + 1, hl, hacc, _, _ => by
    have hp : entries = NULL := hl
    refine ⟨last, h, by simp [qEntryReverse.loop, hp], by simpa using hacc, fun _ _ => rfl⟩
  | x :: l, acc, h, entries, last, fuel + 1, hl, hacc, hdis, hf => by
    have hnot := IsList_head_not_mem hl
    obtain ⟨hp, hn, nx, hx, hrest⟩ := hl
    have hf' : l.length < fuel := by simpa using hf
    have hrest' : IsList (store h entries ⟨x.name, x.value, last⟩) nx l := by
      refine LSeg_frame (fun y hy => store_other h _ ?_) hrest
      rw [hp]; exact hnot y hy
    have hacc' : IsList (store h entries ⟨x.name, x.value, last⟩) entries (x :: acc) := by
      refine ⟨hp, hn, last, store_same _ _ _, LSeg_frame (fun y hy => store_other h _ ?_) hacc⟩
      rw [hp]; exact fun e => hdis x (List.mem_cons_self _ _) y hy e.symm
    have hdis' : ∀ y ∈ l, ∀ z ∈ x :: acc, y.addr ≠ z.addr := by
      intro y hy z hz
      rcases List.mem_cons.mp hz with rfl | hz
      · exact hnot y hy
      · exact hdis y (List.mem_cons_of_mem _ hy) z hz
    obtain ⟨r, h', hrun, hres, hfr⟩ := qEntryReverse_loop_eq hrest' hacc' hdis' hf'
    refine ⟨r, h', ?_, ?_, ?_⟩
    · simp only [qEntryReverse.loop, hn, if_false, load_eq_of_ne_null hn, hx]
      exact hrun
    · simpa using hres
    · intro a ha
      rw [hfr a (fun y hy => ha y (List.mem_cons_of_mem _ hy))]
      exact store_other h _ (by rw [hp]; exact fun e => ha x (List.mem_cons_self _ _) e.symm)

/-- On a well-formed list `qEntryReverse` returns, and what it returns is the
list of the same nodes in the opposite order; memory outside the list is
untouched. -/
theorem qEntryReverse_eq {h : Heap} {first : Ptr} {l : List Entry} {fuel : Nat}
    (hl : IsList h first l) (hf : l.length < fuel) :
    ∃ r h', qEntryReverse h fuel first = some (r, h') ∧ IsList h' r l.reverse ∧
      (∀ a, (∀ x ∈ l, x.addr ≠ a) → h' a = h a) := by
  have hnil : IsList h NULL [] := rfl
  obtain ⟨r, h', hrun, hres, hfr⟩ :=
    qEntryReverse_loop_eq hl hnil (fun _ _ y hy => by simp at hy) hf
  exact ⟨r, h', hrun, by simpa using hres, hfr⟩

/-! ## qEntryRemove on the denoted list -/

/-- Nodes of different parts of a well-formed list are different nodes. -/
theorem IsList_append_addr_ne {h : Heap} {p : Ptr} {l1 l2 : List Entry}
    (hl : IsList h p (l1 ++ l2)) : ∀ a ∈ l1, ∀ b ∈ l2, a.addr ≠ b.addr := by
  have hnd := IsList_nodup hl
  rw [List.map_append] at hnd
  have hdis := List.disjoint_of_nodup_append hnd
  intro a ha b hb hab
  exact hdis (List.mem_map_of_mem _ ha) (hab ▸ List.mem_map_of_mem _ hb)

/-- The last node of a chain links to the end of the chain. -/
theorem LSeg_snoc {h : Heap} {q p : Ptr} {k : List Entry} {z : Entry}
    (hk : LSeg h q p (k ++ [z])) :
    LSeg h z.addr p k ∧ z.addr ≠ NULL ∧ h z.addr = some ⟨z.name, z.value, q⟩ := by
  obtain ⟨m, h1, hm, hn, nx, hz, hq⟩ := LSeg_append.mp hk
  have hq' : nx = q := hq
  subst hq'
  subst hm
  exact ⟨h1, hn, hz⟩

/-- The loop of `qEntryRemove`, started in the middle: `k` are the entries
already kept (the chain from `first` up to `entries`, `prev_entry` being the
last of them) and `r` the entries still to visit.  The string `name` is
readable while entries are left to visit, and it points into an entry that is
removed only when that entry is the last one. -/
theorem qEntryRemove_loop_eq (name : CStr) (n : String) :
    ∀ {r k : List Entry} {h : Heap} {first prev entries : Ptr} {fuel : Nat},
      LSeg h entries first k → IsList h entries r →
      ((k = [] ∧ prev = NULL) ∨ ∃ k' z, k = k' ++ [z] ∧ prev = z.addr) →
      r.length < fuel →
      (r ≠ [] → name.read h = some n) →
      (∀ pre x post, r = pre ++ x :: post → x.name = n →
        (name = CStr.nameOf x.addr ∨ name = CStr.valueOf x.addr) → post = []) →
      ∃ ret h', qEntryRemove.loop name fuel h first prev entries = some (ret, h') ∧
        IsList h' ret (k ++ r.filter (fun x => x.name ≠ n)) ∧
        (∀ a, (∀ x ∈ k ++ r, x.addr ≠ a) → h' a = h a) ∧
        (∀ x ∈ r, x.name = n → h' x.addr = none)
  | _, _, _, _, _, _, 0, _, _, _, hf, _, _ => absurd hf (Nat.not_lt_zero _)
  | [], k, h, first, prev, entries, fuel + 1, hk, hr, _, _, _, _ => by
    have hp : entries = NULL := hr
    refine ⟨first, h, by simp [qEntryRemove.loop, hp], ?_, fun _ _ => rfl, ?_⟩
    · simpa using LSeg_append.mpr ⟨entries, hk, hr⟩
    · intro x hx; simp at hx
  | x :: r, k, h, first, prev, entries, fuel + 1, hk, hr, hprev, hf, hread, hsafe => by
    have hall : IsList h first (k ++ x :: r) := LSeg_append.mpr ⟨entries, hk, hr⟩
    have hxr := IsList_head_not_mem hr
    have hkx := IsList_append_addr_ne hall
    have hrd : name.read h = some n := hread (List.cons_ne_nil _ _)
    have hsafe' : ∀ pre y post, r = pre ++ y :: post → y.name = n →
        (name = CStr.nameOf y.addr ∨ name = CStr.valueOf y.addr) → post = [] :=
      fun pre y post hsplit => hsafe (x :: pre) y post (by rw [hsplit]; rfl)
    obtain ⟨hp, hn, nx, hx, hrest⟩ := hr
    have hf' : r.length < fuel := by simpa using hf
    by_cases hname : x.name = n
    · -- the entry is removed
      have hfilter : (x :: r).filter (fun y => decide (y.name ≠ n))
          = r.filter (fun y => decide (y.name ≠ n)) := by
        simp [List.filter_cons, hname]
      have hrest1 : IsList (free h entries) nx r :=
        LSeg_frame (fun y hy => free_other h (by rw [hp]; exact hxr y hy)) hrest
      have hrd1 : r ≠ [] → name.read (free h entries) = some n := by
        intro hne
        have hna : ¬ (name = CStr.nameOf x.addr ∨ name = CStr.valueOf x.addr) :=
          fun ha => hne (hsafe [] x r rfl hname ha)
        rw [hp, CStr_read_free h (fun e => hna (Or.inl e)) (fun e => hna (Or.inr e))]
        exact hrd
      rcases hprev with ⟨hk0, hprev0⟩ | ⟨k', z, hkz, hprevz⟩
      · subst hk0
        have hfirst : first = entries := hk
        have hk1 : LSeg (free h entries) nx nx [] := rfl
        obtain ⟨ret, h', hrun, hres, hfr, hgone⟩ :=
          @qEntryRemove_loop_eq name n _ _ _ _ prev _ _ hk1 hrest1
            (Or.inl ⟨rfl, hprev0⟩) hf' hrd1 hsafe'
        refine ⟨ret, h', ?_, ?_, ?_, ?_⟩
        · simp only [qEntryRemove.loop, hn, if_false, load_eq_of_ne_null hn, hx, hrd,
            strcmp_eq_zero_iff, hname, if_true, hprev0]
          rw [hprev0] at hrun
          exact hrun
        · rw [hfilter]; exact hres
        · intro a ha
          rw [hfr a (fun y hy => ha y (by simpa using Or.inr hy))]
          exact free_other h (by
            rw [hp]; exact fun e => ha x (by simp) e.symm)
        · intro y hy hyn
          rcases List.mem_cons.mp hy with rfl | hy
          · rw [hfr y.addr (fun w hw => by simpa using hxr w hw), ← hp]
            simp [free]
          · exact hgone y hy hyn
      · subst hkz
        obtain ⟨hk', hzn, hz⟩ := LSeg_snoc hk
        have hzx : z.addr ≠ entries := by
          rw [hp]; exact hkx z (by simp) x (by simp)
        have hpn : prev ≠ NULL := hprevz ▸ hzn
        have hz1 : free h entries prev = some ⟨z.name, z.value, entries⟩ := by
          rw [hprevz, free_other h hzx, hz]
        have hload : load (free h entries) prev = some ⟨z.name, z.value, entries⟩ := by
          rw [load_eq_of_ne_null hpn, hz1]
        have hk'z : ∀ y ∈ k', y.addr ≠ z.addr := by
          have hall' : IsList h first (k' ++ ([z] ++ x :: r)) := by simpa using hall
          exact fun y hy => IsList_append_addr_ne hall' y hy z (by simp)
        have hk2 : LSeg (store (free h entries) prev ⟨z.name, z.value, nx⟩) nx first
            (k' ++ [z]) := by
          refine LSeg_append.mpr ⟨z.addr, ?_, rfl, hzn, nx, ?_, rfl⟩
          · refine LSeg_frame (fun y hy => ?_) hk'
            rw [store_other _ _ (by rw [hprevz]; exact hk'z y hy),
              free_other h (by rw [hp]; exact hkx y (by simp [hy]) x (by simp))]
          · rw [← hprevz]; exact store_same _ _ _
        have hrest2 : IsList (store (free h entries) prev ⟨z.name, z.value, nx⟩) nx r :=
          LSeg_frame (fun y hy => store_other _ _ (by
            rw [hprevz]; exact fun e => hkx z (by simp) y (by simp [hy]) e.symm)) hrest1
        have hrd2 : r ≠ [] →
            name.read (store (free h entries) prev ⟨z.name, z.value, nx⟩) = some n := by
          intro hne
          have := CStr_read_store_next (free h entries) hz1 nx name
          rw [this]
          exact hrd1 hne
        obtain ⟨ret, h', hrun, hres, hfr, hgone⟩ :=
          @qEntryRemove_loop_eq name n _ _ _ _ prev _ _ hk2 hrest2
            (Or.inr ⟨k', z, rfl, hprevz⟩) hf' hrd2 hsafe'
        refine ⟨ret, h', ?_, ?_, ?_, ?_⟩
        · simp only [qEntryRemove.loop, hn, if_false, load_eq_of_ne_null hn, hx, hrd,
            strcmp_eq_zero_iff, hname, if_true, hpn, hload]
          exact hrun
        · rw [hfilter]; exact hres
        · intro a ha
          rw [hfr a (fun y hy => ha y (by
            rcases List.mem_append.mp hy with hy | hy
            · exact List.mem_append_left _ hy
            · exact List.mem_append_right _ (List.mem_cons_of_mem _ hy)))]
          rw [store_other _ _ (by rw [hprevz]; exact fun e => ha z (by simp) e.symm),
            free_other h (by rw [hp]; exact fun e => ha x (by simp) e.symm)]
        · intro y hy hyn
          rcases List.mem_cons.mp hy with rfl | hy
          · rw [hfr y.addr (fun w hw => by
              rcases List.mem_append.mp hw with hw | hw
              · exact hkx w hw y (by simp)
              · exact hxr w hw),
              store_other _ _ (by rw [hprevz, ← hp]; exact fun e => hzx e.symm), ← hp]
            simp [free]
          · exact hgone y hy hyn
    · -- the entry is kept
      have hfilter : (x :: r).filter (fun y => decide (y.name ≠ n))
          = x :: r.filter (fun y => decide (y.name ≠ n)) := by
        simp [List.filter_cons, hname]
      have hk1 : LSeg h nx first (k ++ [x]) :=
        LSeg_append.mpr ⟨entries, hk, hp, hn, nx, hx, rfl⟩
      obtain ⟨ret, h', hrun, hres, hfr, hgone⟩ :=
        @qEntryRemove_loop_eq name n _ _ _ _ entries _ _ hk1 hrest
          (Or.inr ⟨k, x, rfl, hp⟩) hf' (fun _ => hrd) hsafe'
      refine ⟨ret, h', ?_, ?_, ?_, ?_⟩
      · simp only [qEntryRemove.loop, hn, if_false, load_eq_of_ne_null hn, hx, hrd,
          strcmp_eq_zero_iff, hname]
        exact hrun
      · rw [hfilter]; simpa using hres
      · intro a ha
        exact hfr a (fun y hy => ha y (by simpa using hy))
      · intro y hy hyn
        rcases List.mem_cons.mp hy with rfl | hy
        · exact absurd hyn hname
        · exact hgone y hy hyn

/-- On a well-formed list, with a non-empty name that the call can read to its
end, `qEntryRemove` returns, and what it returns is the list of the nodes with
another name, in their order; the nodes with the name are freed and memory
outside the list is untouched. -/
theorem qEntryRemove_eq {h : Heap} {first : Ptr} {l : List Entry} {fuel : Nat}
    {name : CStr} {n : String} (hl : IsList h first l) (hf : l.length < fuel)
    (hread : name.read h = some n) (hname : n ≠ "")
    (hsafe : ∀ pre x post, l = pre ++ x :: post → x.name = n →
      (name = CStr.nameOf x.addr ∨ name = CStr.valueOf x.addr) → post = []) :
    ∃ ret h', qEntryRemove h fuel first name = some (ret, h') ∧
      IsList h' ret (l.filter (fun x => x.name ≠ n)) ∧
      (∀ a, (∀ x ∈ l, x.addr ≠ a) → h' a = h a) ∧
      (∀ x ∈ l, x.name = n → h' x.addr = none) := by
  have hk : LSeg h first first [] := rfl
  obtain ⟨ret, h', hrun, hres, hfr, hgone⟩ :=
    @qEntryRemove_loop_eq name n _ _ _ _ NULL _ _ hk hl (Or.inl ⟨rfl, rfl⟩) hf
      (fun _ => hread) hsafe
  refine ⟨ret, h', ?_, by simpa using hres, by simpa using hfr, hgone⟩
  unfold qEntryRemove
  simp only [hread]
  rw [if_neg (fun e => hname ((strcmp_empty_iff n).mp e))]
  exact hrun

/-- A string outside the list is never freed by a call. -/
theorem CStr_str_safe (s n : String) (l : List Entry) :
    ∀ pre x post, l = pre ++ x :: post → x.name = n →
      (CStr.str s = CStr.nameOf x.addr ∨ CStr.str s = CStr.valueOf x.addr) → post = [] := by
  intro pre x post _ _ ha
  rcases ha with ha | ha <;> cases ha

/-! ## qEntryAdd on the denoted list -/

/-- The replace loop of `qEntryAdd` falls through on a list without the name. -/
theorem qEntryAdd_replaceLoop_absent {h : Heap} {name : String} (value : CStr) :
    ∀ {l : List Entry} {p : Ptr} {fuel : Nat}, IsList h p l →
      (∀ y ∈ l, y.name ≠ name) → l.length < fuel →
      qEntryAdd.replaceLoop name value h fuel p = some none
  | _, _, 0, _, _, hf => absurd hf (Nat.not_lt_zero _)
  | [], p, fuel + 1, hl, _, _ => by
    have hp : p = NULL := hl
    simp [qEntryAdd.replaceLoop, hp]
  | x :: l, p, fuel + 1, hl, hno, hf => by
    obtain ⟨hp, hn, nx, hx, hrest⟩ := hl
    have hf' : l.length < fuel := by simpa using hf
    have hname : x.name ≠ name := hno x (List.mem_cons_self _ _)
    simp only [qEntryAdd.replaceLoop, hn, if_false, load_eq_of_ne_null hn, hx,
      strcmp_eq_zero_iff, hname]
    exact qEntryAdd_replaceLoop_absent value hrest
      (fun y hy => hno y (List.mem_cons_of_mem _ hy)) hf'

/-- The replace loop of `qEntryAdd` stops at the first node with the name,
stores there the characters of `value`, which must not be the string that the
loop frees, and returns that node. -/
theorem qEntryAdd_replaceLoop_found {h : Heap} {name : String} (value : CStr) {v : String}
    {x : Entry} {post : List Entry} (hv : value.read h = some v)
    (hsafe : value ≠ CStr.valueOf x.addr) :
    ∀ {pre : List Entry} {p : Ptr} {fuel : Nat}, IsList h p (pre ++ x :: post) →
      (∀ y ∈ pre, y.name ≠ name) → x.name = name → pre.length < fuel →
      ∃ nx, h x.addr = some ⟨x.name, x.value, nx⟩ ∧
        qEntryAdd.replaceLoop name value h fuel p
          = some (some (x.addr, store h x.addr ⟨x.name, v, nx⟩))
  | _, _, 0, _, _, _, hf => absurd hf (Nat.not_lt_zero _)
  | [], p, fuel + 1, hl, _, hname, _ => by
    obtain ⟨hp, hn, nx, hx, _⟩ := hl
    subst hp
    refine ⟨nx, hx, ?_⟩
    simp only [qEntryAdd.replaceLoop, hn, if_false, load_eq_of_ne_null hn, hx,
      strcmp_eq_zero_iff, hname, if_true, hsafe, hv]
  | y :: pre, p, fuel + 1, hl, hno, hname, hf => by
    obtain ⟨hp, hn, nx, hy, hrest⟩ := hl
    have hf' : pre.length < fuel := by simpa using hf
    have hyn : y.name ≠ name := hno y (List.mem_cons_self _ _)
    obtain ⟨nx', hx', hrun⟩ := qEntryAdd_replaceLoop_found value hv hsafe hrest
      (fun w hw => hno w (List.mem_cons_of_mem _ hw)) hname hf'
    refine ⟨nx', hx', ?_⟩
    simp only [qEntryAdd.replaceLoop, hn, if_false, load_eq_of_ne_null hn, hy,
      strcmp_eq_zero_iff, hyn]
    exact hrun

/-- Storing another value in one node of a well-formed list changes the value
of that entry and nothing else. -/
theorem IsList_store_value {h : Heap} {p : Ptr} {pre post : List Entry} {x : Entry}
    {nx : Ptr} (value : String) (hl : IsList h p (pre ++ x :: post))
    (hx : h x.addr = some ⟨x.name, x.value, nx⟩) :
    IsList (store h x.addr ⟨x.name, value, nx⟩) p
      (pre ++ ⟨x.addr, x.name, value⟩ :: post) := by
  have hpre := IsList_append_addr_ne hl
  obtain ⟨m, h1, h2⟩ := LSeg_append.mp hl
  have hpost := IsList_head_not_mem h2
  obtain ⟨hm, hn, nx', hx', hrest⟩ := h2
  have hnx : nx' = nx := by
    rw [hm, hx] at hx'
    simp only [Option.some.injEq, Q_ENTRY.mk.injEq, true_and] at hx'
    exact hx'.symm
  subst hnx
  refine LSeg_append.mpr ⟨m, ?_, hm, hn, nx', ?_, ?_⟩
  · exact LSeg_frame (fun y hy => store_other h _ (hpre y hy x (by simp))) h1
  · rw [hm]; exact store_same _ _ _
  · exact LSeg_frame (fun y hy => store_other h _ (hpost y hy)) hrest

/-- The loop that walks to the end of a non-empty list stops at its last node. -/
theorem qEntryAdd_lastLoop_eq {h : Heap} {z : Entry} :
    ∀ {l : List Entry} {p : Ptr} {fuel : Nat}, IsList h p (l ++ [z]) → l.length < fuel →
      qEntryAdd.lastLoop h fuel p = some z.addr
  | _, _, 0, _, hf => absurd hf (Nat.not_lt_zero _)
  | [], p, fuel + 1, hl, _ => by
    obtain ⟨hp, hn, nx, hz, hrest⟩ := hl
    have hnx : nx = NULL := hrest
    subst hp
    simp [qEntryAdd.lastLoop, load_eq_of_ne_null hn, hz, hnx]
  | y :: l, p, fuel + 1, hl, hf => by
    obtain ⟨hp, hn, nx, hy, hrest⟩ := hl
    have hf' : l.length < fuel := by simpa using hf
    have hnx : nx ≠ NULL := by
      intro e
      rw [e] at hrest
      have := IsList_null hrest
      simp at this
    simp only [qEntryAdd.lastLoop, load_eq_of_ne_null hn, hy, ne_eq, hnx, not_false_eq_true,
      if_true]
    exact qEntryAdd_lastLoop_eq hrest hf'

/-- The node `malloc` returns is not a node of an existing list. -/
theorem IsList_fresh_not_mem {h : Heap} {p fresh : Ptr} {l : List Entry}
    (hl : IsList h p l) (hfresh : h fresh = none) : ∀ x ∈ l, x.addr ≠ fresh := by
  intro x hx e
  obtain ⟨_, nx, hnx⟩ := LSeg_mem hl x hx
  rw [e, hfresh] at hnx
  simp at hnx

/-- When the replace loop is not run or does not find the name, `qEntryAdd`
allocates a node for `(name, value)`, links it behind the last node of the list
and returns it. -/
theorem qEntryAdd_new_eq {h : Heap} {fresh first : Ptr} {l : List Entry} {fuel : Nat}
    {name : String} (arg : CStr) {value : String} (flag : Int) (hl : IsList h first l)
    (hf : l.length < fuel) (hname : name ≠ "") (hnull : fresh ≠ NULL)
    (hfresh : h fresh = none) (hv : arg.read h = some value)
    (hflag : flag ≠ 1 ∨ ∀ y ∈ l, y.name ≠ name) :
    ∃ h', qEntryAdd h fresh fuel first name arg flag = some (fresh, h') ∧
      IsList h' (if first = NULL then fresh else first) (l ++ [⟨fresh, name, value⟩]) ∧
      IsList h' fresh [⟨fresh, name, value⟩] ∧
      (∀ a, a ≠ fresh → (∀ x ∈ l, x.addr ≠ a) → h' a = h a) := by
  have hloop : (if flag = 1 then qEntryAdd.replaceLoop name arg h fuel first
      else some none) = some none := by
    by_cases h1 : flag = 1
    · rw [if_pos h1]
      rcases hflag with hflag | hflag
      · exact absurd h1 hflag
      · exact qEntryAdd_replaceLoop_absent arg hl hflag hf
    · rw [if_neg h1]
  have hne : ¬ strcmp name "" = 0 := fun e => hname ((strcmp_empty_iff name).mp e)
  have hnotin := IsList_fresh_not_mem hl hfresh
  have hl1 : IsList (store h fresh ⟨name, value, NULL⟩) first l :=
    LSeg_frame (fun y hy => store_other h _ (hnotin y hy)) hl
  have hnew : IsList (store h fresh ⟨name, value, NULL⟩) fresh [⟨fresh, name, value⟩] :=
    ⟨rfl, hnull, NULL, store_same _ _ _, rfl⟩
  unfold qEntryAdd
  rw [if_neg hne, hloop]
  simp only [hv, ite_self]
  by_cases hfirst : first = NULL
  · -- the list was empty
    have hnil : l = [] := IsList_null (hfirst ▸ hl)
    subst hnil
    refine ⟨store h fresh ⟨name, value, NULL⟩, by simp [hfirst], ?_, hnew, ?_⟩
    · simpa [hfirst] using hnew
    · intro a ha _; exact store_other h _ ha
  · -- the list has a last node
    obtain ⟨l', z, rfl⟩ : ∃ l' z, l = l' ++ [z] := by
      rcases List.eq_nil_or_concat l with hnil | ⟨l', z, hz⟩
      · subst hnil; exact absurd (IsList_nil.mp hl) hfirst
      · exact ⟨l', z, by simpa using hz⟩
    have hf' : l'.length < fuel := by
      simp only [List.length_append, List.length_singleton] at hf
      omega
    have hlast := qEntryAdd_lastLoop_eq hl1 hf'
    obtain ⟨hseg, hzn, hz⟩ := LSeg_snoc hl1
    have hzfresh : z.addr ≠ fresh := hnotin z (by simp)
    have hl'z := IsList_append_addr_ne hl
    have hnew2 : IsList
        (store (store h fresh ⟨name, value, NULL⟩) z.addr ⟨z.name, z.value, fresh⟩)
        fresh [⟨fresh, name, value⟩] :=
      ⟨rfl, hnull, NULL, (store_other _ _ (fun e => hzfresh e.symm)).trans (store_same _ _ _),
        rfl⟩
    refine ⟨store (store h fresh ⟨name, value, NULL⟩) z.addr ⟨z.name, z.value, fresh⟩,
      ?_, ?_, ?_, ?_⟩
    · simp only [ne_eq, hfirst, not_false_eq_true, if_true, hlast, load_eq_of_ne_null hzn, hz]
    · rw [if_neg hfirst, List.append_assoc]
      refine LSeg_append.mpr ⟨z.addr, ?_, rfl, hzn, fresh, store_same _ _ _, hnew2⟩
      exact LSeg_frame (fun y hy => store_other _ _ (hl'z y hy z (by simp))) hseg
    · exact hnew2
    · intro a ha hal
      rw [store_other _ _ (fun e => hal z (by simp) e.symm), store_other h _ ha]

/-- When the list has an entry with the name, `qEntryAdd` with `flag == 1`
stores the characters of the value in the first such node and returns that
node; the value must not be the string of that node that the call frees. -/
theorem qEntryAdd_replace_eq {h : Heap} (fresh : Ptr) {first : Ptr} {pre post : List Entry}
    {x : Entry} {fuel : Nat} {name : String} (arg : CStr) {value : String}
    (hl : IsList h first (pre ++ x :: post)) (hf : pre.length < fuel)
    (hname : name ≠ "") (hpre : ∀ y ∈ pre, y.name ≠ name) (hx : x.name = name)
    (hv : arg.read h = some value) (hsafe : arg ≠ CStr.valueOf x.addr) :
    ∃ h', qEntryAdd h fresh fuel first name arg 1 = some (x.addr, h') ∧
      IsList h' first (pre ++ ⟨x.addr, name, value⟩ :: post) ∧
      (∀ a, a ≠ x.addr → h' a = h a) := by
  have hne : ¬ strcmp name "" = 0 := fun e => hname ((strcmp_empty_iff name).mp e)
  obtain ⟨nx, hnode, hrun⟩ := qEntryAdd_replaceLoop_found arg hv hsafe hl hpre hx hf
  refine ⟨store h x.addr ⟨x.name, value, nx⟩, ?_, ?_, fun a ha => store_other h _ ha⟩
  · unfold qEntryAdd
    rw [if_neg hne, if_pos rfl, hrun]
  · subst hx
    exact IsList_store_value value hl hnode

/-! ## Facts on lists of entries -/

/-- The first entry with a name, from a split of the list at it. -/
theorem find_first_of_split {name : String} {pre post : List Entry} {x : Entry}
    (hpre : ∀ y ∈ pre, y.name ≠ name) (hx : x.name = name) :
    (pre ++ x :: post).find? (fun y => y.name = name) = some x := by
  induction pre with
  | nil => simp [hx]
  | cons y pre ih =>
    have hy : y.name ≠ name := hpre y (List.mem_cons_self _ _)
    simp only [List.cons_append, List.find?_cons, hy, decide_False]
    exact ih (fun w hw => hpre w (List.mem_cons_of_mem _ hw))

/-- The last entry with a name, from a split of the list at it. -/
theorem find_last_of_split {name : String} {pre post : List Entry} {x : Entry}
    (hpost : ∀ y ∈ post, y.name ≠ name) (hx : x.name = name) :
    (pre ++ x :: post).reverse.find? (fun y => y.name = name) = some x := by
  have hrev : (pre ++ x :: post).reverse = post.reverse ++ x :: pre.reverse := by simp
  rw [hrev]
  exact find_first_of_split (fun y hy => hpost y (List.mem_reverse.mp hy)) hx

/-- A list with an entry of some name splits at the first such entry. -/
theorem split_at_first {name : String} :
    ∀ {l : List Entry}, (∃ y ∈ l, y.name = name) →
      ∃ pre x post, l = pre ++ x :: post ∧ (∀ y ∈ pre, y.name ≠ name) ∧ x.name = name
  | [], ⟨_, hy, _⟩ => by simp at hy
  | z :: l, ⟨y, hy, hyn⟩ => by
    by_cases hz : z.name = name
    · exact ⟨[], z, l, rfl, by simp, hz⟩
    · rcases List.mem_cons.mp hy with rfl | hy
      · exact absurd hyn hz
      · obtain ⟨pre, x, post, hl, hpre, hx⟩ := split_at_first ⟨y, hy, hyn⟩
        refine ⟨z :: pre, x, post, by rw [hl]; rfl, ?_, hx⟩
        intro w hw
        rcases List.mem_cons.mp hw with rfl | hw
        · exact hz
        · exact hpre w hw

/-- The position of the first entry with a name, from a split of the list. -/
theorem findIdx_of_split {name : String} {pre post : List Entry} {x : Entry}
    (hpre : ∀ y ∈ pre, y.name ≠ name) (hx : x.name = name) :
    (pre ++ x :: post).findIdx (fun y => y.name = name) = pre.length := by
  induction pre with
  | nil => simp [List.findIdx_cons, hx]
  | cons y pre ih =>
    have hy : y.name ≠ name := hpre y (List.mem_cons_self _ _)
    simp only [List.cons_append, List.findIdx_cons, hy, decide_False, cond_false,
      List.length_cons]
    rw [ih (fun w hw => hpre w (List.mem_cons_of_mem _ hw))]

/-- Without an entry of the name the search runs to the end of the list. -/
theorem findIdx_of_absent {name : String} {l : List Entry}
    (hl : ∀ y ∈ l, y.name ≠ name) :
    l.findIdx (fun y => y.name = name) = l.length := by
  induction l with
  | nil => rfl
  | cons y l ih =>
    have hy : y.name ≠ name := hl y (List.mem_cons_self _ _)
    simp only [List.findIdx_cons, hy, decide_False, cond_false, List.length_cons]
    rw [ih (fun w hw => hl w (List.mem_cons_of_mem _ hw))]

theorem find_name_eq_none {name : String} {l : List Entry} :
    l.find? (fun y => y.name = name) = none ↔ ∀ y ∈ l, y.name ≠ name := by
  simp

/-- The example heap holds the example list. -/
theorem exampleHeap_isList : IsList exampleHeap 1 exampleList := by
  simp [IsList, LSeg, exampleList, exampleHeap, NULL]

/-! ## Further facts on chains -/

/-- Two pointers that denote the same entries are the same pointer. -/
theorem IsList_ptr_eq {h h' : Heap} {p q : Ptr} {l : List Entry}
    (hp : IsList h p l) (hq : IsList h' q l) : p = q := by
  cases l with
  | nil => exact (IsList_nil.mp hp).trans (IsList_nil.mp hq).symm
  | cons x l => exact hp.1.trans hq.1.symm

/-- Two heaps in which a pointer denotes the same entries hold the same nodes
along the list. -/
theorem IsList_heap_agree {h h' : Heap} :
    ∀ {l : List Entry} {p : Ptr}, IsList h p l → IsList h' p l →
      ∀ x ∈ l, h' x.addr = h x.addr
  | [], _, _, _, x, hx => by simp at hx
  | y :: l, p, ⟨hp, _, nx, hy, hrest⟩, ⟨_, _, nx', hy', hrest'⟩, x, hx => by
    have hnx : nx = nx' := IsList_ptr_eq hrest hrest'
    subst hnx
    rcases List.mem_cons.mp hx with rfl | hx
    · rw [← hp, hy, hy']
    · exact IsList_heap_agree hrest hrest' x hx

/-- The loop of `qEntryRemove` on entries none of which has the name: nothing
is written and the first-entry pointer is kept. -/
theorem qEntryRemove_loop_absent (name : CStr) {n : String} {h : Heap} (first : Ptr)
    (hread : name.read h = some n) :
    ∀ {r : List Entry} {prev entries : Ptr} {fuel : Nat}, IsList h entries r →
      (∀ y ∈ r, y.name ≠ n) → r.length < fuel →
      qEntryRemove.loop name fuel h first prev entries = some (first, h)
  | _, _, _, 0, _, _, hf => absurd hf (Nat.not_lt_zero _)
  | [], prev, entries, fuel + 1, hr, _, _ => by
    have hp : entries = NULL := hr
    simp [qEntryRemove.loop, hp]
  | x :: r, prev, entries, fuel + 1, hr, hno, hf => by
    obtain ⟨hp, hn, nx, hx, hrest⟩ := hr
    have hf' : r.length < fuel := by simpa using hf
    have hname : x.name ≠ n := hno x (List.mem_cons_self _ _)
    simp only [qEntryRemove.loop, hn, if_false, load_eq_of_ne_null hn, hx, hread,
      strcmp_eq_zero_iff, hname]
    exact qEntryRemove_loop_absent name first hread hrest
      (fun y hy => hno y (List.mem_cons_of_mem _ hy)) hf'

/-! ## The lookups as functions of the denoted list -/

/-- The value `qEntryValue` returns on a well-formed list. -/
theorem qEntryValue_eq {h : Heap} {first : Ptr} {l : List Entry} {fuel : Nat}
    (name : String) (hl : IsList h first l) (hf : l.length < fuel) :
    qEntryValue h fuel first name
      = some ((l.find? (fun x => x.name = name)).map Entry.value) :=
  qEntryValue_loop_eq name hl hf

/-- The value `qEntryValueLast` returns on a well-formed list. -/
theorem qEntryValueLast_eq {h : Heap} {first : Ptr} {l : List Entry} {fuel : Nat}
    (name : String) (hl : IsList h first l) (hf : l.length < fuel) :
    qEntryValueLast h fuel first name
      = some ((l.reverse.find? (fun x => x.name = name)).map Entry.value) := by
  have := @qEntryValueLast_loop_eq h name l first fuel none hl hf
  simpa [qEntryValueLast] using this

/-- The number `qEntryNo` returns on a well-formed list with the name. -/
theorem qEntryNo_found {h : Heap} {first : Ptr} {pre post : List Entry} {x : Entry}
    {fuel : Nat} {name : String} (hl : IsList h first (pre ++ x :: post))
    (hf : (pre ++ x :: post).length < fuel)
    (hint : ((pre ++ x :: post).length : Int) < INT_MAX)
    (hpre : ∀ y ∈ pre, y.name ≠ name) (hx : x.name = name) :
    qEntryNo h fuel first name = some ((pre.length : Int) + 1) := by
  have hno := @qEntryNo_loop_eq h name _ first fuel 1 hl hf (by omega)
  unfold qEntryNo
  rw [hno, findIdx_of_split hpre hx, if_pos (by simp)]
  congr 1; omega

/-- The number `qEntryNo` returns on a well-formed list without the name. -/
theorem qEntryNo_absent {h : Heap} {first : Ptr} {l : List Entry} {fuel : Nat}
    {name : String} (hl : IsList h first l) (hf : l.length < fuel)
    (hint : (l.length : Int) < INT_MAX) (habs : ∀ y ∈ l, y.name ≠ name) :
    qEntryNo h fuel first name = some 0 := by
  have hno := @qEntryNo_loop_eq h name _ first fuel 1 hl hf (by omega)
  unfold qEntryNo
  rw [hno, findIdx_of_absent habs, if_neg (Nat.lt_irrefl _)]

/-! ## Facts on filtered lists of entries -/

/-- The loop of `qEntryValueNoCase` finds the first entry whose name compares
equal under `qStricmp`. -/
theorem qEntryValueNoCase_loop_eq (qStricmp : String → String → Int) {h : Heap}
    (name : String) :
    ∀ {l : List Entry} {p : Ptr} {fuel : Nat}, IsList h p l → l.length < fuel →
      qEntryValueNoCase.loop qStricmp h name fuel p
        = some ((l.find? (fun x => qStricmp name x.name = 0)).map Entry.value)
  | _, _, 0, _, hf => absurd hf (Nat.not_lt_zero _)
  | [], p, fuel + 1, hl, _ => by
    have hp : p = NULL := hl
    simp [qEntryValueNoCase.loop, hp]
  | x :: l, p, fuel + 1, hl, hf => by
    obtain ⟨hp, hn, nx, hx, hrest⟩ := hl
    have hf' : l.length < fuel := by simpa using hf
    have ih := qEntryValueNoCase_loop_eq qStricmp name hrest hf'
    simp only [qEntryValueNoCase.loop, hn, if_false, load_eq_of_ne_null hn, hx]
    by_cases hname : qStricmp name x.name = 0
    · simp [hname]
    · simp [hname, ih]

/-- The characters of the decimal digits. -/
theorem digitChar_facts {d : Nat} (hd : d < 10) :
    isdigit (digitChar d) = true ∧ (digitChar d).toNat - 48 = d ∧
      isspace (digitChar d) = false ∧ digitChar d ≠ '-' ∧ digitChar d ≠ '+' := by
  interval_cases d <;> decide

/-- White space in front of characters that do not start with white space is
all that `dropWhile isspace` drops. -/
theorem dropWhile_isspace_append :
    ∀ (ws t : List Char), (∀ c ∈ ws, isspace c = true) →
      (∀ c u, t = c :: u → isspace c = false) → (ws ++ t).dropWhile isspace = t
  | [], [], _, _ => rfl
  | [], c :: u, _, ht => by
    simp [List.dropWhile_cons, ht c u rfl]
  | w :: ws, t, hws, ht => by
    have hw : isspace w = true := hws w (List.mem_cons_self _ _)
    simp only [List.cons_append, List.dropWhile_cons, hw, if_true]
    exact dropWhile_isspace_append ws t (fun c hc => hws c (List.mem_cons_of_mem _ hc)) ht

/-- Reading a run of decimal digits that ends at the end of the string or at a
character that is not a digit gives the number the run writes in base 10. -/
theorem atoi_digits_run :
    ∀ (ds : List Nat) (acc : Nat) (rest : List Char), (∀ d ∈ ds, d < 10) →
      (∀ c u, rest = c :: u → isdigit c = false) →
      atoi.digits (ds.map digitChar ++ rest) acc
        = acc * 10 ^ ds.length + Nat.ofDigits 10 ds.reverse
  | [], acc, [], _, _ => by simp [atoi.digits]
  | [], acc, c :: u, _, hrest => by simp [atoi.digits, hrest c u rfl]
  | d :: ds, acc, rest, hds, hrest => by
    obtain ⟨h1, h2, _⟩ := digitChar_facts (hds d (List.mem_cons_self _ _))
    simp only [List.map_cons, List.cons_append, atoi.digits, h1, if_true, h2]
    have happ : (ds.map digitChar).append rest = ds.map digitChar ++ rest := rfl
    rw [happ, atoi_digits_run ds _ rest (fun e he => hds e (List.mem_cons_of_mem _ he)) hrest]
    simp only [List.reverse_cons, Nat.ofDigits_append, Nat.ofDigits_singleton,
      List.length_reverse, List.length_cons]
    ring

/-- The whole of `atoi`: on white space, then an optional sign, then decimal
digits, then anything that does not go on the number, the result is the integer
that the sign and the digits write, when it fits an `int`. -/
theorem atoi_parts (ws sgn : List Char) (ds : List Nat) (rest : List Char)
    (hws : ∀ c ∈ ws, isspace c = true)
    (hsgn : sgn = [] ∨ sgn = ['-'] ∨ sgn = ['+'])
    (hds : ∀ d ∈ ds, d < 10)
    (hrest : ∀ c u, rest = c :: u → isdigit c = false)
    (hbare : sgn = [] → ds = [] →
      ∀ c u, rest = c :: u → isspace c = false ∧ c ≠ '-' ∧ c ≠ '+')
    (hmin : INT_MIN ≤ decimalValue sgn ds) (hmax : decimalValue sgn ds ≤ INT_MAX) :
    atoi (String.mk (ws ++ sgn ++ ds.map digitChar ++ rest))
      = some (decimalValue sgn ds) := by
  -- the characters after the sign
  have hhead : ∀ c u, ds.map digitChar ++ rest = c :: u →
      (ds ≠ [] ∨ rest = c :: u) ∧ (ds ≠ [] → isspace c = false ∧ c ≠ '-' ∧ c ≠ '+') := by
    intro c u hcu
    cases ds with
    | nil => exact ⟨Or.inr (by simpa using hcu), fun hne => absurd rfl hne⟩
    | cons d ds =>
      obtain ⟨_, _, h3, h4, h5⟩ := digitChar_facts (hds d (List.mem_cons_self _ _))
      simp only [List.map_cons, List.cons_append, List.cons.injEq] at hcu
      rw [← hcu.1]
      exact ⟨Or.inl (by simp), fun _ => ⟨h3, h4, h5⟩⟩
  have hplain : sgn = [] → ∀ c u, ds.map digitChar ++ rest = c :: u →
      isspace c = false ∧ c ≠ '-' ∧ c ≠ '+' := by
    intro hs c u hcu
    by_cases hd : ds = []
    · subst hd
      exact hbare hs rfl c u (by simpa using hcu)
    · exact (hhead c u hcu).2 hd
  have hdrop : (ws ++ sgn ++ ds.map digitChar ++ rest).dropWhile isspace
      = sgn ++ (ds.map digitChar ++ rest) := by
    rw [List.append_assoc, List.append_assoc]
    apply dropWhile_isspace_append ws _ hws
    intro c u hcu
    rcases hsgn with hs | hs | hs
    · subst hs
      exact (hplain rfl c u (by simpa using hcu)).1
    · subst hs
      simp only [List.cons_append, List.nil_append, List.cons.injEq] at hcu
      rw [← hcu.1]; decide
    · subst hs
      simp only [List.cons_append, List.nil_append, List.cons.injEq] at hcu
      rw [← hcu.1]; decide
  have hsign : atoi.sign (sgn ++ (ds.map digitChar ++ rest))
      = (decide (sgn = ['-']), ds.map digitChar ++ rest) := by
    rcases hsgn with hs | hs | hs
    · subst hs
      rw [List.nil_append]
      cases hcu : ds.map digitChar ++ rest with
      | nil => rfl
      | cons c u =>
        obtain ⟨_, h4, h5⟩ := hplain rfl c u hcu
        simp [atoi.sign, h4, h5]
    · subst hs; rfl
    · subst hs; rfl
  have hnum := atoi_digits_run ds 0 rest hds hrest
  unfold atoi
  simp only [hdrop, hsign, hnum, Nat.zero_mul, Nat.zero_add]
  unfold decimalValue at hmin hmax ⊢
  by_cases hneg : sgn = ['-']
  · simp only [hneg, decide_True, if_true] at hmin hmax ⊢
    rw [if_pos ⟨hmin, hmax⟩]
  · simp only [hneg, decide_False, if_false, Bool.false_eq_true] at hmin hmax ⊢
    rw [if_pos ⟨hmin, hmax⟩]

/-- A decimal digit character is the character of its digit. -/
theorem digitChar_of_isdigit {c : Char} (hc : isdigit c = true) :
    c.toNat - 48 < 10 ∧ digitChar (c.toNat - 48) = c := by
  simp only [isdigit, Bool.and_eq_true, decide_eq_true_eq] at hc
  refine ⟨by omega, ?_⟩
  unfold digitChar
  rw [show 48 + (c.toNat - 48) = c.toNat by omega]
  exact Char.ofNat_toNat c

/-- Every string of characters starts with a run of decimal digits, possibly
empty, that ends at the end of the string or at a character that is not a
digit. -/
theorem digit_run_exists :
    ∀ (cs : List Char), ∃ (ds : List Nat) (rest : List Char),
      cs = ds.map digitChar ++ rest ∧ (∀ d ∈ ds, d < 10) ∧
      (∀ c u, rest = c :: u → isdigit c = false) ∧ (ds = [] → rest = cs)
  | [] => ⟨[], [], rfl, by simp, by simp, fun _ => rfl⟩
  | c :: cs => by
    by_cases hc : isdigit c = true
    · obtain ⟨ds, rest, hcs, hds, hrest, _⟩ := digit_run_exists cs
      obtain ⟨h1, h2⟩ := digitChar_of_isdigit hc
      refine ⟨(c.toNat - 48) :: ds, rest, ?_, ?_, hrest, by simp⟩
      · rw [List.map_cons, h2, List.cons_append, ← hcs]
      · intro d hd
        rcases List.mem_cons.mp hd with rfl | hd
        · exact h1
        · exact hds d hd
    · refine ⟨[], c :: cs, rfl, by simp, ?_, fun _ => rfl⟩
      intro c' u hcu
      rw [← (List.cons.inj hcu).1]
      simpa using hc

/-- White space is dropped up to a character that is not white space. -/
theorem dropWhile_isspace_head :
    ∀ (cs : List Char) (c : Char) (u : List Char), cs.dropWhile isspace = c :: u →
      isspace c = false
  | [], _, _, h => by simp at h
  | a :: cs, c, u, h => by
    by_cases ha : isspace a = true
    · rw [List.dropWhile_cons, if_pos ha] at h
      exact dropWhile_isspace_head cs c u h
    · rw [List.dropWhile_cons, if_neg ha] at h
      rw [← (List.cons.inj h).1]
      simpa using ha

/-- Every string is of the form that `atoi_parts` reads: white space, an
optional sign, decimal digits, and a rest that does not go on the number. -/
theorem atoi_parts_exist (cs : List Char) :
    ∃ (ws sgn : List Char) (ds : List Nat) (rest : List Char),
      cs = ws ++ sgn ++ ds.map digitChar ++ rest ∧
      (∀ c ∈ ws, isspace c = true) ∧ (sgn = [] ∨ sgn = ['-'] ∨ sgn = ['+']) ∧
      (∀ d ∈ ds, d < 10) ∧ (∀ c u, rest = c :: u → isdigit c = false) ∧
      (sgn = [] → ds = [] →
        ∀ c u, rest = c :: u → isspace c = false ∧ c ≠ '-' ∧ c ≠ '+') := by
  have hsplit : cs = cs.takeWhile isspace ++ cs.dropWhile isspace :=
    (List.takeWhile_append_dropWhile _ cs).symm
  have hws : ∀ c ∈ cs.takeWhile isspace, isspace c = true :=
    fun c hc => List.mem_takeWhile_imp hc
  cases ht : cs.dropWhile isspace with
  | nil =>
    refine ⟨cs.takeWhile isspace, [], [], [], ?_, hws, Or.inl rfl, by simp, by simp, by simp⟩
    rw [ht, List.append_nil] at hsplit
    simpa using hsplit
  | cons c u =>
    have hc : isspace c = false := dropWhile_isspace_head cs c u ht
    rw [ht] at hsplit
    by_cases hminus : c = '-'
    · obtain ⟨ds, rest, hu, hds, hrest, _⟩ := digit_run_exists u
      refine ⟨cs.takeWhile isspace, ['-'], ds, rest, ?_, hws, Or.inr (Or.inl rfl), hds, hrest,
        fun e => by cases e⟩
      rw [hminus, hu] at hsplit
      simpa using hsplit
    · by_cases hplus : c = '+'
      · obtain ⟨ds, rest, hu, hds, hrest, _⟩ := digit_run_exists u
        refine ⟨cs.takeWhile isspace, ['+'], ds, rest, ?_, hws, Or.inr (Or.inr rfl), hds,
          hrest, fun e => by cases e⟩
        rw [hplus, hu] at hsplit
        simpa using hsplit
      · obtain ⟨ds, rest, hu, hds, hrest, hnil⟩ := digit_run_exists (c :: u)
        refine ⟨cs.takeWhile isspace, [], ds, rest, ?_, hws, Or.inl rfl, hds, hrest, ?_⟩
        · rw [hu] at hsplit
          simpa using hsplit
        · intro _ hd c' u' hcu
          rw [hnil hd] at hcu
          rw [← (List.cons.inj hcu).1]
          exact ⟨hc, hminus, hplus⟩

/-- The characters of decimal digits are decimal digit characters. -/
theorem all_isdigit_map_digitChar :
    ∀ (ds : List Nat), (∀ d ∈ ds, d < 10) → (ds.map digitChar).all isdigit = true
  | [], _ => rfl
  | d :: ds, hds => by
    rw [List.map_cons, List.all_cons, (digitChar_facts (hds d (List.mem_cons_self _ _))).1,
      all_isdigit_map_digitChar ds (fun e he => hds e (List.mem_cons_of_mem _ he))]
    rfl

/-- Decimal digit characters are the characters of decimal digits. -/
theorem map_digitChar_of_all_isdigit :
    ∀ (cs : List Char), cs.all isdigit = true →
      ∃ ds : List Nat, (∀ d ∈ ds, d < 10) ∧ cs = ds.map digitChar
  | [], _ => ⟨[], by simp, rfl⟩
  | c :: cs, h => by
    rw [List.all_cons, Bool.and_eq_true] at h
    obtain ⟨ds, hds, hcs⟩ := map_digitChar_of_all_isdigit cs h.2
    obtain ⟨h1, h2⟩ := digitChar_of_isdigit h.1
    refine ⟨(c.toNat - 48) :: ds, ?_, by rw [List.map_cons, h2, ← hcs]⟩
    intro d hd
    rcases List.mem_cons.mp hd with rfl | hd
    · exact h1
    · exact hds d hd

/-- The numeric values are the strings of an optional sign and one or more
decimal digits. -/
theorem Numeric_iff (v : String) :
    Numeric v = true ↔
      ∃ (sgn : List Char) (ds : List Nat),
        (sgn = [] ∨ sgn = ['-'] ∨ sgn = ['+']) ∧ ds ≠ [] ∧ (∀ d ∈ ds, d < 10) ∧
        v = String.mk (sgn ++ ds.map digitChar) := by
  constructor
  · intro hv
    unfold Numeric at hv
    cases hd : v.data with
    | nil => rw [hd] at hv; simp at hv
    | cons c cs =>
      rw [hd] at hv
      have hveq : v = String.mk (c :: cs) := by rw [← hd]
      by_cases hsign : c = '-' ∨ c = '+'
      · simp only [hsign, if_true, Bool.and_eq_true, Bool.not_eq_true', List.isEmpty_eq_false] at hv
        obtain ⟨ds, hds, hcs⟩ := map_digitChar_of_all_isdigit cs hv.2
        have hne : ds ≠ [] := by
          intro e
          rw [e] at hcs
          exact hv.1 hcs
        rcases hsign with hs | hs
        · exact ⟨['-'], ds, Or.inr (Or.inl rfl), hne, hds, by rw [hveq, hs, hcs]; rfl⟩
        · exact ⟨['+'], ds, Or.inr (Or.inr rfl), hne, hds, by rw [hveq, hs, hcs]; rfl⟩
      · simp only [hsign, if_false] at hv
        obtain ⟨ds, hds, hcs⟩ := map_digitChar_of_all_isdigit (c :: cs) hv
        have hne : ds ≠ [] := by
          intro e
          rw [e] at hcs
          simp at hcs
        exact ⟨[], ds, Or.inl rfl, hne, hds, by rw [hveq, hcs]; rfl⟩
  · rintro ⟨sgn, ds, hsgn, hne, hds, rfl⟩
    have hall := all_isdigit_map_digitChar ds hds
    cases ds with
    | nil => exact absurd rfl hne
    | cons d ds =>
      obtain ⟨_, _, _, h4, h5⟩ := digitChar_facts (hds d (List.mem_cons_self _ _))
      rcases hsgn with hs | hs | hs
      · subst hs
        simp only [Numeric, List.nil_append, List.map_cons, h4, h5, or_self, if_false]
        exact hall
      · subst hs
        simp only [Numeric, List.cons_append, List.nil_append, true_or, if_true]
        simp only [List.map_cons] at hall ⊢
        simp [hall]
      · subst hs
        simp only [Numeric, List.cons_append, List.nil_append, or_true, if_true]
        simp only [List.map_cons] at hall ⊢
        simp [hall]

/-- A decimal numeral that fits an `int` is read as the number it writes. -/
theorem atoi_numeral (ds : List Nat) (hds : ∀ d ∈ ds, d < 10)
    (hmax : ((Nat.ofDigits 10 ds.reverse : Nat) : Int) ≤ INT_MAX) :
    atoi (numeral ds) = some ((Nat.ofDigits 10 ds.reverse : Nat) : Int) := by
  have hmin : INT_MIN ≤ ((Nat.ofDigits 10 ds.reverse : Nat) : Int) := by
    have : (0 : Int) ≤ ((Nat.ofDigits 10 ds.reverse : Nat) : Int) := Int.natCast_nonneg _
    unfold INT_MIN; omega
  have hparts := atoi_parts [] [] ds [] (by simp) (Or.inl rfl) hds (by simp) (by simp)
    (by simpa [decimalValue] using hmin) (by simpa [decimalValue] using hmax)
  simpa [decimalValue, numeral] using hparts

/-- The number heap holds the number list. -/
theorem numberHeap_isList : IsList numberHeap 1 numberList := by
  simp [IsList, LSeg, numberList, numberHeap, NULL]

/-- The heap `mixedHeap` holds the one entry `size=12abc`. -/
theorem mixedHeap_isList : IsList mixedHeap 1 [⟨1, "size", "12abc"⟩] := by
  simp [IsList, LSeg, mixedHeap, NULL]

/-! ## qEntrySave on the denoted list -/

/-- Writing lines one after the other to a stream adds them, in order, to the
text of its file. -/
theorem fprintf_foldl_same (fp : String) :
    ∀ (lines : List String) (fs : FileSystem) (c : String), fs fp = some c →
      (lines.foldl (fun fs s => fprintf fs fp s) fs) fp
        = some (lines.foldl (fun c s => c ++ s) c)
  | [], _, _, hc => hc
  | s :: lines, fs, c, hc => by
    simp only [List.foldl_cons]
    exact fprintf_foldl_same fp lines (fprintf fs fp s) (c ++ s) (by simp [fprintf, hc])

/-- Writing to a stream leaves the other files as they are. -/
theorem fprintf_foldl_other (fp : String) {p : String} (hp : p ≠ fp) :
    ∀ (lines : List String) (fs : FileSystem),
      (lines.foldl (fun fs s => fprintf fs fp s) fs) p = fs p
  | [], _ => rfl
  | s :: lines, fs => by
    simp only [List.foldl_cons]
    rw [fprintf_foldl_other fp hp lines (fprintf fs fp s)]
    simp [fprintf, hp]

/-- The loop of `qEntrySave` writes one line per entry, in the order of the
list, and counts the entries. -/
theorem qEntrySave_loop_eq (qURLencode : String → String) {h : Heap} (fp : String)
    (encodevalue : Bool) :
    ∀ {l : List Entry} {p : Ptr} {fuel : Nat} (fs : FileSystem) (amount : Int),
      IsList h p l → l.length < fuel → amount + l.length ≤ INT_MAX →
      qEntrySave.loop qURLencode h fp encodevalue fuel fs p amount
        = some (amount + l.length,
            (l.map (fun x => qEntrySave.line qURLencode encodevalue x.name x.value)).foldl
              (fun fs s => fprintf fs fp s) fs)
  | _, _, 0, _, _, _, hf, _ => absurd hf (Nat.not_lt_zero _)
  | [], p, fuel + 1, fs, amount, hl, _, _ => by
    have hp : p = NULL := hl
    simp [qEntrySave.loop, hp]
  | x :: l, p, fuel + 1, fs, amount, hl, hf, hno => by
    obtain ⟨hp, hn, nx, hx, hrest⟩ := hl
    have hf' : l.length < fuel := by simpa using hf
    have hlen : ((x :: l).length : Int) = (l.length : Int) + 1 := by simp
    have hnn : (0 : Int) ≤ (l.length : Int) := Int.natCast_nonneg _
    have hov : ¬ amount + 1 > INT_MAX := by omega
    have ih := qEntrySave_loop_eq qURLencode fp encodevalue
      (fprintf fs fp (qEntrySave.line qURLencode encodevalue x.name x.value)) (amount + 1)
      hrest hf' (by omega)
    simp only [qEntrySave.loop, hn, if_false, load_eq_of_ne_null hn, hx, hov, ih,
      List.map_cons, List.foldl_cons]
    congr 2
    omega

/-! ## qEntryLoad on the denoted list -/

/-- Lists with the same name/value pairs have the same length. -/
theorem length_eq_of_pairs_eq {l1 l2 : List Entry} (hp : pairs l1 = pairs l2) :
    l1.length = l2.length := by
  have := congrArg List.length hp
  simpa [pairs] using this

/-- The loop of `qEntryLoad` replaces the value of every node by its decoding
and changes nothing else. -/
theorem qEntryLoad_loop_eq (qURLdecode : String → String) :
    ∀ {l : List Entry} {h : Heap} {p : Ptr} {fuel : Nat}, IsList h p l → l.length < fuel →
      ∃ h', qEntryLoad.loop qURLdecode fuel h p = some h' ∧
        IsList h' p (l.map (fun x => ⟨x.addr, x.name, qURLdecode x.value⟩)) ∧
        (∀ a, (∀ x ∈ l, x.addr ≠ a) → h' a = h a)
  | _, _, _, 0, _, hf => absurd hf (Nat.not_lt_zero _)
  | [], h, p, fuel + 1, hl, _ => by
    have hp : p = NULL := hl
    exact ⟨h, by simp [qEntryLoad.loop, hp], hl, fun _ _ => rfl⟩
  | x :: l, h, p, fuel + 1, hl, hf => by
    have hnot := IsList_head_not_mem hl
    obtain ⟨hp, hn, nx, hx, hrest⟩ := hl
    have hf' : l.length < fuel := by simpa using hf
    have hrest' : IsList (store h p ⟨x.name, qURLdecode x.value, nx⟩) nx l :=
      LSeg_frame (fun y hy => store_other h _ (by rw [hp]; exact hnot y hy)) hrest
    obtain ⟨h', hrun, hres, hfr⟩ := qEntryLoad_loop_eq qURLdecode hrest' hf'
    refine ⟨h', ?_, ?_, ?_⟩
    · simp only [qEntryLoad.loop, hn, if_false, load_eq_of_ne_null hn, hx]
      exact hrun
    · refine ⟨hp, hn, nx, ?_, hres⟩
      rw [hfr p (fun y hy e => hnot y hy (e.trans hp))]
      exact store_same _ _ _
    · intro a ha
      rw [hfr a (fun y hy => ha y (List.mem_cons_of_mem _ hy))]
      exact store_other h _ (by rw [hp]; exact fun e => ha x (List.mem_cons_self _ _) e.symm)

/-- What `qEntryLoad` returns, from the list the parser left: with
`decodevalue` true the same nodes with every value decoded, with `decodevalue`
false the parser's pointer and state. -/
theorem qEntryLoad_eq (qfDecoder : World → String → Ptr × World)
    (qURLdecode : String → String) (w : World) {l : List Entry} {fuel : Nat}
    (filename : String)
    (hl : IsList (qfDecoder w filename).2.heap (qfDecoder w filename).1 l)
    (hf : l.length < fuel) :
    (∃ w2, qEntryLoad qfDecoder qURLdecode w fuel filename true
        = some ((qfDecoder w filename).1, w2) ∧
      IsList w2.heap (qfDecoder w filename).1
        (l.map (fun x => ⟨x.addr, x.name, qURLdecode x.value⟩)) ∧
      w2.files = (qfDecoder w filename).2.files) ∧
    qEntryLoad qfDecoder qURLdecode w fuel filename false
      = some ((qfDecoder w filename).1, (qfDecoder w filename).2) := by
  by_cases hfirst : (qfDecoder w filename).1 = NULL
  · have hnil : l = [] := IsList_null (hfirst ▸ hl)
    subst hnil
    refine ⟨⟨(qfDecoder w filename).2, ?_, hl, rfl⟩, ?_⟩
    · simp [qEntryLoad, hfirst]
    · simp [qEntryLoad, hfirst]
  · obtain ⟨h', hrun, hres, _⟩ := qEntryLoad_loop_eq qURLdecode hl hf
    refine ⟨⟨World.mk h' (qfDecoder w filename).2.files, ?_, hres, rfl⟩, ?_⟩
    · simp [qEntryLoad, hfirst, hrun]
    · simp [qEntryLoad, hfirst]

/-! ## The file format -/

/-- A text without a newline, followed by a newline, is a line of its own. -/
theorem splitLines_line :
    ∀ (a rest : List Char), '\n' ∉ a → splitLines (a ++ '\n' :: rest) = a :: splitLines rest
  | [], rest, _ => by simp [splitLines]
  | c :: a, rest, ha => by
    have hc : c ≠ '\n' := fun e => ha (e ▸ List.mem_cons_self _ _)
    have ha' : '\n' ∉ a := fun e => ha (List.mem_cons_of_mem _ e)
    have ih := splitLines_line a rest ha'
    have happ : a.append ('\n' :: rest) = a ++ '\n' :: rest := rfl
    simp only [List.cons_append, splitLines, hc, if_false]
    rw [happ, ih]

/-- A line that starts with `#` is a comment. -/
theorem parseLine_comment (rest : List Char) : parseLine ('#' :: rest) = none := by
  simp [parseLine]

/-- A line `name=value` gives the name and the value, for a name that is not
empty, has no `=` and does not start with `#`. -/
theorem parseLine_entry (name value : List Char) (hne : name ≠ [])
    (heq : '=' ∉ name) (hhash : name.head? ≠ some '#') :
    parseLine (name ++ '=' :: value) = some (String.mk name, String.mk value) := by
  have hall : ∀ d ∈ name, (decide (d ≠ '=')) = true := by
    intro d hd
    simpa using fun e : d = '=' => heq (e ▸ hd)
  have htake : (name ++ '=' :: value).takeWhile (fun d => decide (d ≠ '=')) = name := by
    rw [List.takeWhile_append_of_pos hall]
    simp
  have hdrop : (name ++ '=' :: value).dropWhile (fun d => decide (d ≠ '=')) = '=' :: value := by
    rw [List.dropWhile_append_of_pos hall]
    simp
  cases name with
  | nil => exact absurd rfl hne
  | cons c name =>
    have hc : c ≠ '#' := fun e => hhash (by simp [e])
    have hne' : ¬ (c :: (name ++ '=' :: value)).takeWhile (fun d => decide (d ≠ '=')) = [] := by
      have := htake
      simp only [List.cons_append] at this
      rw [this]; simp
    simp only [List.cons_append] at htake hdrop
    simp only [parseLine, List.cons_append, hc, if_false, hdrop, htake]
    simp

/-- What `qEntrySave` does when the destination opens: it returns the number
of entries, leaves the memory and the other files as they are, and the file of
the destination holds the two header lines followed by the lines of the
entries. -/
theorem qEntrySave_open_eq (qURLencode : String → String) (gmt : String)
    (canOpen : String → Bool) (w : World) {first : Ptr} {l : List Entry} {fuel : Nat}
    (filename : String) (encodevalue : Bool) (hl : IsList w.heap first l)
    (hf : l.length < fuel) (hint : (l.length : Int) ≤ INT_MAX)
    (hcan : canOpen filename = true) :
    ∃ w', qEntrySave qURLencode gmt canOpen w fuel first filename encodevalue
        = some ((l.length : Int), w') ∧
      w'.heap = w.heap ∧ IsList w'.heap first l ∧
      w'.files filename = some
        ((l.map (fun x => x.name ++ "=" ++
            (if encodevalue = true then qURLencode x.value else x.value) ++ "\n")).foldl
          (fun c s => c ++ s)
          ("# automatically generated by qDecoder at " ++ gmt ++ ".\n" ++
            ("# " ++ filename ++ "\n"))) ∧
      (∀ p, p ≠ filename → w'.files p = w.files p) := by
  have hloop := qEntrySave_loop_eq qURLencode filename encodevalue
    (fprintf (fprintf (fun p => if p = filename then some "" else w.files p) filename
      ("# automatically generated by qDecoder at " ++ gmt ++ ".\n")) filename
      ("# " ++ filename ++ "\n")) 0 hl hf (by omega)
  have hrun : qEntrySave qURLencode gmt canOpen w fuel first filename encodevalue
      = some ((l.length : Int),
          World.mk w.heap
            ((l.map (fun x => qEntrySave.line qURLencode encodevalue x.name x.value)).foldl
              (fun fs s => fprintf fs filename s)
              (fprintf (fprintf (fun p => if p = filename then some "" else w.files p)
                filename ("# automatically generated by qDecoder at " ++ gmt ++ ".\n"))
                filename ("# " ++ filename ++ "\n")))) := by
    simp only [qEntrySave, qfopen, hcan, if_true, hloop, Int.zero_add]
  refine ⟨_, hrun, rfl, hl, ?_, ?_⟩
  · simp only []
    rw [fprintf_foldl_same filename _ _
      ("# automatically generated by qDecoder at " ++ gmt ++ ".\n" ++
        ("# " ++ filename ++ "\n")) (by simp [fprintf])]
    rfl
  · intro p hp
    simp only []
    rw [fprintf_foldl_other filename hp]
    simp [fprintf, hp]

/-- The characters of a text built by adding lines to a start. -/
theorem foldl_append_data :
    ∀ (lines : List String) (c : String),
      (lines.foldl (fun c s => c ++ s) c).data = c.data ++ lines.flatMap String.data
  | [], c => by simp
  | s :: lines, c => by
    simp only [List.foldl_cons, List.flatMap_cons]
    rw [foldl_append_data lines (c ++ s), String.data_append, List.append_assoc]

/-- The lines `qEntrySave` writes for the entries are read back as the names
with the encoded values, when no name is empty, has a newline or `=`, or
starts with `#`, and no encoded value has a newline. -/
theorem parse_entry_lines (qURLencode : String → String) :
    ∀ (l : List Entry),
      (∀ x ∈ l, x.name ≠ "" ∧ '\n' ∉ x.name.data ∧ '=' ∉ x.name.data ∧
        x.name.data.head? ≠ some '#') →
      (∀ x ∈ l, '\n' ∉ (qURLencode x.value).data) →
      (splitLines ((l.map (fun x => x.name ++ "=" ++ qURLencode x.value ++ "\n")).flatMap
          String.data)).filterMap parseLine
        = l.map (fun x => (x.name, qURLencode x.value))
  | [], _, _ => by simp [splitLines, parseLine]
  | x :: l, hnames, henc => by
    obtain ⟨hne, hnl, heq, hhash⟩ := hnames x (List.mem_cons_self _ _)
    have hvnl := henc x (List.mem_cons_self _ _)
    have ih := parse_entry_lines qURLencode l
      (fun y hy => hnames y (List.mem_cons_of_mem _ hy))
      (fun y hy => henc y (List.mem_cons_of_mem _ hy))
    have hflat : ((x :: l).map (fun x => x.name ++ "=" ++ qURLencode x.value ++ "\n")).flatMap
          String.data
        = (x.name.data ++ '=' :: (qURLencode x.value).data) ++ '\n' ::
          (l.map (fun x => x.name ++ "=" ++ qURLencode x.value ++ "\n")).flatMap
            String.data := by
      simp [List.flatMap_cons, String.data_append]
    have hline : '\n' ∉ x.name.data ++ '=' :: (qURLencode x.value).data := by
      intro hmem
      rcases List.mem_append.mp hmem with hmem | hmem
      · exact hnl hmem
      · rcases List.mem_cons.mp hmem with hmem | hmem
        · exact absurd hmem (by decide)
        · exact hvnl hmem
    have hne' : x.name.data ≠ [] := by
      intro e
      apply hne
      exact String.ext e
    rw [hflat, splitLines_line _ _ hline, List.filterMap_cons,
      parseLine_entry x.name.data (qURLencode x.value).data hne' heq hhash, ih]
    rfl

/-- The file `qEntrySave` writes with encoded values is read back by the line
format of the spec as the names with the encoded values, the two header lines
giving no entry. -/
theorem LoadKeyValueLines_saved (qURLencode : String → String) (gmt filename : String)
    (l : List Entry) (hgmt : '\n' ∉ gmt.data) (hfile : '\n' ∉ filename.data)
    (hnames : ∀ x ∈ l, x.name ≠ "" ∧ '\n' ∉ x.name.data ∧ '=' ∉ x.name.data ∧
      x.name.data.head? ≠ some '#')
    (henc : ∀ x ∈ l, '\n' ∉ (qURLencode x.value).data) :
    LoadKeyValueLines
        ((l.map (fun x => x.name ++ "=" ++ qURLencode x.value ++ "\n")).foldl
          (fun c s => c ++ s)
          ("# automatically generated by qDecoder at " ++ gmt ++ ".\n" ++
            ("# " ++ filename ++ "\n")))
      = l.map (fun x => (x.name, qURLencode x.value)) := by
  have hhead : ∀ body : List Char,
      ("# automatically generated by qDecoder at " ++ gmt ++ ".\n" ++
        ("# " ++ filename ++ "\n")).data ++ body
      = ('#' :: (" automatically generated by qDecoder at ".data ++ gmt.data ++ ['.'])) ++
        '\n' :: (('#' :: ' ' :: filename.data) ++ '\n' :: body) := by
    intro body
    simp [String.data_append]
  have hl1 : '\n' ∉ '#' :: (" automatically generated by qDecoder at ".data ++ gmt.data
      ++ ['.']) := by
    intro hmem
    rcases List.mem_cons.mp hmem with hmem | hmem
    · exact absurd hmem (by decide)
    · rcases List.mem_append.mp hmem with hmem | hmem
      · rcases List.mem_append.mp hmem with hmem | hmem
        · exact absurd hmem (by decide)
        · exact hgmt hmem
      · exact absurd hmem (by decide)
  have hl2 : '\n' ∉ '#' :: ' ' :: filename.data := by
    intro hmem
    rcases List.mem_cons.mp hmem with hmem | hmem
    · exact absurd hmem (by decide)
    · rcases List.mem_cons.mp hmem with hmem | hmem
      · exact absurd hmem (by decide)
      · exact hfile hmem
  unfold LoadKeyValueLines
  rw [foldl_append_data, hhead, splitLines_line _ _ hl1, splitLines_line _ _ hl2,
    List.filterMap_cons, parseLine_comment, List.filterMap_cons, parseLine_comment]
  exact parse_entry_lines qURLencode l hnames henc

/-- The name/value pairs after decoding every value. -/
theorem pairs_map_decode (qURLdecode : String → String) (l : List Entry) :
    pairs (l.map (fun x => (⟨x.addr, x.name, qURLdecode x.value⟩ : Entry)))
      = (pairs l).map (fun p => (p.1, qURLdecode p.2)) := by
  simp [pairs, List.map_map, Function.comp_def]

/-- The round-trip world holds the round-trip list. -/
theorem spaceWorld_isList : IsList spaceWorld.heap 1 spaceList := by
  simp [IsList, LSeg, spaceList, spaceWorld, NULL]

/-- The newline world holds its one entry. -/
theorem newlineWorld_isList : IsList newlineWorld.heap 1 [⟨1, "a\nb", "c"⟩] := by
  simp [IsList, LSeg, newlineWorld, oneEntryWorld, NULL]

/-! ## Arguments that point into the list -/

/-- The call `qEntryRemove(first, name)` with the name string of the first
`role` node of the example list, which is not the last node the call removes:
the node and its strings are freed, and the comparison with the name of the next
node reads the freed string, a fault.  With the name string of the last `role`
node the call returns. -/
theorem qEntryRemove_freed_name_fault :
    CStr.read exampleHeap (CStr.nameOf 2) = some "role" ∧
    (qEntryRemove exampleHeap 4 1 (CStr.nameOf 2)).isNone = true ∧
    (qEntryRemove exampleHeap 4 1 (CStr.nameOf 3)).map Prod.fst = some 1 := by
  decide

/-- The call `qEntryAdd(first, "role", value, 1)` with the value string of the
first `role` node of the example list: the string is freed before `strdup`
reads it, a fault.  With the value string of another node the call returns the
first `role` node. -/
theorem qEntryAdd_freed_value_fault :
    CStr.read exampleHeap (CStr.valueOf 2) = some "admin" ∧
    (qEntryAdd exampleHeap 4 4 1 "role" (CStr.valueOf 2) 1).isNone = true ∧
    (qEntryAdd exampleHeap 4 4 1 "role" (CStr.valueOf 3) 1).map Prod.fst = some 2 ∧
    (qEntryAdd exampleHeap 4 4 1 "role" (CStr.valueOf 2) 0).map Prod.fst = some 4 := by
  decide

/-! ## The percent coding and the parser of the spec -/

/-- A hexadecimal digit stands for its number. -/
theorem hexValue_hexDigit {n : Nat} (hn : n < 16) :
    hexValue (hexDigit n) = some n ∧ hexDigit n ≠ '\n' := by
  interval_cases n <;> decide

/-- The characters the encoder leaves as they are, are not `%` and not a
newline. -/
theorem PercentEncode_keep_ne {c : Char}
    (hc : (c.isAlphanum || c = '-' || c = '_' || c = '.' || c = '~' ||
      decide (256 ≤ c.toNat)) = true) : c ≠ '%' ∧ c ≠ '\n' := by
  constructor
  · intro e
    subst e
    exact absurd hc (by decide)
  · intro e
    subst e
    exact absurd hc (by decide)

/-- No encoded character has a newline. -/
theorem PercentEncode_char_no_newline (c : Char) : '\n' ∉ PercentEncode.char c := by
  unfold PercentEncode.char
  by_cases hc : (c.isAlphanum || c = '-' || c = '_' || c = '.' || c = '~' ||
      decide (256 ≤ c.toNat)) = true
  · rw [if_pos hc]
    intro hmem
    exact (PercentEncode_keep_ne hc).2 (List.mem_singleton.mp hmem).symm
  · rw [if_neg hc]
    have h1 := (@hexValue_hexDigit (c.toNat / 16 % 16) (Nat.mod_lt _ (by decide))).2
    have h2 := (@hexValue_hexDigit (c.toNat % 16) (Nat.mod_lt _ (by decide))).2
    intro hmem
    rcases List.mem_cons.mp hmem with hmem | hmem
    · exact absurd hmem (by decide)
    · rcases List.mem_cons.mp hmem with hmem | hmem
      · exact h1 hmem.symm
      · exact h2 (List.mem_singleton.mp hmem).symm

/-- No encoded value has a newline. -/
theorem PercentEncode_no_newline (v : String) : '\n' ∉ (PercentEncode v).data := by
  unfold PercentEncode
  intro hmem
  obtain ⟨c, _, hc⟩ := List.mem_flatMap.mp hmem
  exact PercentEncode_char_no_newline c hc

/-- A character other than `%` is decoded as itself. -/
theorem PercentDecode_chars_cons_of_ne {c : Char} (hc : c ≠ '%') :
    ∀ t : List Char, PercentDecode.chars (c :: t) = c :: PercentDecode.chars t
  | [] => rfl
  | [_] => rfl
  | a :: b :: rest => by
    rw [PercentDecode.chars, if_neg hc]

/-- Decoding undoes encoding, character by character. -/
theorem PercentDecode_chars_encode :
    ∀ cs : List Char, PercentDecode.chars (cs.flatMap PercentEncode.char) = cs
  | [] => rfl
  | c :: cs => by
    have ih := PercentDecode_chars_encode cs
    rw [List.flatMap_cons]
    by_cases hc : (c.isAlphanum || c = '-' || c = '_' || c = '.' || c = '~' ||
        decide (256 ≤ c.toNat)) = true
    · have hchar : PercentEncode.char c = [c] := by
        unfold PercentEncode.char
        rw [if_pos hc]
      rw [hchar, List.singleton_append,
        PercentDecode_chars_cons_of_ne (PercentEncode_keep_ne hc).1, ih]
    · have hchar : PercentEncode.char c
          = ['%', hexDigit (c.toNat / 16 % 16), hexDigit (c.toNat % 16)] := by
        unfold PercentEncode.char
        rw [if_neg hc]
      rw [hchar]
      have hbyte : c.toNat < 256 := by
        simp only [Bool.or_eq_true, decide_eq_true_eq, not_or, not_le] at hc
        exact hc.2
      have h1 := (@hexValue_hexDigit (c.toNat / 16 % 16) (Nat.mod_lt _ (by decide))).1
      have h2 := (@hexValue_hexDigit (c.toNat % 16) (Nat.mod_lt _ (by decide))).1
      have hval : 16 * (c.toNat / 16 % 16) + c.toNat % 16 = c.toNat := by omega
      show PercentDecode.chars ('%' :: hexDigit (c.toNat / 16 % 16) ::
        hexDigit (c.toNat % 16) :: cs.flatMap PercentEncode.char) = c :: cs
      rw [PercentDecode.chars, if_pos rfl, h1, h2]
      simp only []
      rw [hval, Char.ofNat_toNat, ih]

/-- Decoding undoes encoding: `PercentDecode (PercentEncode v) = v` for every
value. -/
theorem PercentDecode_PercentEncode (v : String) : PercentDecode (PercentEncode v) = v := by
  unfold PercentDecode PercentEncode
  rw [PercentDecode_chars_encode]

/-- The list `buildList` makes from name/value pairs is well formed and holds
exactly the pairs, in order, on nodes from `base` on. -/
theorem buildList_isList (h : Heap) :
    ∀ (ps : List (String × String)) (base : Ptr), base ≠ NULL →
      ∃ l1, IsList (buildList h base ps).2 (buildList h base ps).1 l1 ∧ pairs l1 = ps ∧
        (∀ x ∈ l1, base ≤ x.addr)
  | [], base, _ => ⟨[], rfl, rfl, by simp⟩
  | (name, value) :: rest, base, hbase => by
    obtain ⟨l1, hl1, hp, hge⟩ := buildList_isList h rest (base + 1) (by simp [NULL])
    refine ⟨⟨base, name, value⟩ :: l1, ?_, ?_, ?_⟩
    · refine ⟨rfl, hbase, (buildList h (base + 1) rest).1, store_same _ _ _, ?_⟩
      refine LSeg_frame (fun x hx => ?_) hl1
      exact store_other _ _ (Nat.ne_of_gt (hge x hx))
    · simp [pairs] at hp ⊢
      exact hp
    · intro x hx
      rcases List.mem_cons.mp hx with rfl | hx
      · exact Nat.le_refl _
      · exact Nat.le_of_succ_le (hge x hx)

/-- The parser of the spec leaves a well-formed list that holds exactly the
pairs the line format reads from the file. -/
theorem qfDecoderAt_isList (base : Ptr) (w : World) (filename c : String)
    (hbase : base ≠ NULL) (hfile : w.files filename = some c) :
    ∃ l1, IsList (qfDecoderAt base w filename).2.heap (qfDecoderAt base w filename).1 l1 ∧
      pairs l1 = LoadKeyValueLines c := by
  obtain ⟨l1, hl1, hp, _⟩ := buildList_isList w.heap (LoadKeyValueLines c) base hbase
  refine ⟨l1, ?_, hp⟩
  simp only [qfDecoderAt, hfile]
  exact hl1

/-! ## The claims -/

/-- C1: on every well-formed list, with a non-empty name and any value the
call can read (a string outside the list or a string of one of its nodes),
`qEntryAdd` in mode Append (flag 0) and in mode AppendTransferOwnership
(flag 2) returns the node it allocated, and afterwards the list (seen from
`first`, or from the returned node when the list was empty) is the original
entries, same nodes, names, values and order, followed by one new last entry
`(name, value)`; the returned node is that entry, and it is the whole list when
the list was empty.  Nothing is assumed on the names already in the list. -/
theorem qEntryAdd_append_spec (h : Heap) (fresh first : Ptr) (l : List Entry) (fuel : Nat)
    (name : String) (value : CStr) (v : String) (flag : Int) (hl : IsList h first l)
    (hf : l.length < fuel) (hname : name ≠ "") (hv : value.read h = some v)
    (hflag : flag = 0 ∨ flag = 2) (hnull : fresh ≠ NULL) (hfresh : h fresh = none) :
    ∃ h', qEntryAdd h fresh fuel first name value flag = some (fresh, h') ∧
      IsList h' (if first = NULL then fresh else first) (l ++ [⟨fresh, name, v⟩]) ∧
      IsList h' fresh [⟨fresh, name, v⟩] ∧
      (first ≠ NULL → IsList h' first (l ++ [⟨fresh, name, v⟩])) ∧
      (first = NULL → l = [] ∧ IsList h' fresh (l ++ [⟨fresh, name, v⟩])) := by
  have hflag1 : flag ≠ 1 := by rcases hflag with e | e <;> rw [e] <;> decide
  obtain ⟨h', hrun, hres, hnew, _⟩ :=
    qEntryAdd_new_eq value flag hl hf hname hnull hfresh hv (Or.inl hflag1)
  refine ⟨h', hrun, hres, hnew, ?_, ?_⟩
  · intro hne; simpa [hne] using hres
  · intro he
    exact ⟨IsList_null (he ▸ hl), by simpa [he] using hres⟩

/-- C1, on the example list: appending a second `role` entry with flag 2. -/
theorem qEntryAdd_append_spec_witness :
    IsList exampleHeap 1 exampleList ∧
    (∃ h', qEntryAdd exampleHeap 4 4 1 "role" (CStr.str "guest") 2 = some (4, h') ∧
      IsList h' 1 (exampleList ++ [⟨4, "role", "guest"⟩])) := by
  refine ⟨exampleHeap_isList, ?_⟩
  obtain ⟨h', hrun, _, _, hres, _⟩ :=
    qEntryAdd_append_spec exampleHeap 4 1 exampleList 4 "role" (CStr.str "guest") "guest" 2
      exampleHeap_isList (by decide) (by decide) rfl (Or.inr rfl) (by decide) (by decide)
  exact ⟨h', hrun, hres (by decide)⟩

/-- C2: on every well-formed list `qEntryValue` and `qEntryValueLast` return;
`qEntryValue` returns the value of the earliest entry whose name is the given
name, `qEntryValueLast` the value of the latest such entry, and each returns
`NULL` exactly when no entry has that name.  On
`[(user,alice),(role,admin),(role,root)]` the first value of `role` is `admin`
and the last is `root`. -/
theorem qEntryValue_first_last_spec (h : Heap) (first : Ptr) (l : List Entry) (fuel : Nat)
    (name : String) (hl : IsList h first l) (hf : l.length < fuel) :
    (∃ r, qEntryValue h fuel first name = some r) ∧
    (∃ r, qEntryValueLast h fuel first name = some r) ∧
    (∀ pre x post, l = pre ++ x :: post → x.name = name → (∀ y ∈ pre, y.name ≠ name) →
      qEntryValue h fuel first name = some (some x.value)) ∧
    (∀ pre x post, l = pre ++ x :: post → x.name = name → (∀ y ∈ post, y.name ≠ name) →
      qEntryValueLast h fuel first name = some (some x.value)) ∧
    (qEntryValue h fuel first name = some none ↔ ∀ y ∈ l, y.name ≠ name) ∧
    (qEntryValueLast h fuel first name = some none ↔ ∀ y ∈ l, y.name ≠ name) ∧
    (∀ a1 a2 a3, l = [⟨a1, "user", "alice"⟩, ⟨a2, "role", "admin"⟩, ⟨a3, "role", "root"⟩] →
      name = "role" →
      qEntryValue h fuel first name = some (some "admin") ∧
      qEntryValueLast h fuel first name = some (some "root")) := by
  have hv : qEntryValue h fuel first name
      = some ((l.find? (fun x => x.name = name)).map Entry.value) :=
    qEntryValue_loop_eq name hl hf
  have hvl : qEntryValueLast h fuel first name
      = some ((l.reverse.find? (fun x => x.name = name)).map Entry.value) := by
    have := @qEntryValueLast_loop_eq h name l first fuel none hl hf
    simpa [qEntryValueLast] using this
  refine ⟨⟨_, hv⟩, ⟨_, hvl⟩, ?_, ?_, ?_, ?_, ?_⟩
  · rintro pre x post rfl hx hpre
    rw [hv, find_first_of_split hpre hx]; rfl
  · rintro pre x post rfl hx hpost
    rw [hvl, find_last_of_split hpost hx]; rfl
  · rw [hv]
    simp
  · rw [hvl]
    simp
  · rintro a1 a2 a3 rfl rfl
    rw [hv, hvl]
    constructor <;> rfl

/-- C2, on the example heap. -/
theorem qEntryValue_first_last_spec_witness :
    IsList exampleHeap 1 exampleList ∧
    qEntryValue exampleHeap 4 1 "role" = some (some "admin") ∧
    qEntryValueLast exampleHeap 4 1 "role" = some (some "root") :=
  ⟨exampleHeap_isList,
    (qEntryValue_first_last_spec exampleHeap 1 exampleList 4 "role" exampleHeap_isList
      (by decide)).2.2.2.2.2.2 1 2 3 rfl rfl⟩

/-- C3, as stated, fails: appending `role=guest` with flag 0 to
`[(user,alice),(role,admin),(role,root)]` and then looking `role` up with
`qEntryValue` gives `admin`, the value of the earliest entry with that name,
not the appended value `guest`. -/
theorem qEntryAdd_append_then_first_counterexample :
    (qEntryAdd exampleHeap 4 4 1 "role" (CStr.str "guest") 0).bind
        (fun r => qEntryValue r.2 5 1 "role") = some (some "admin") ∧
    (qEntryAdd exampleHeap 4 4 1 "role" (CStr.str "guest") 0).bind
        (fun r => qEntryValue r.2 5 1 "role") ≠ some (some "guest") := by
  constructor <;> decide

/-- C3, amended: on every well-formed list, with a non-empty name and any value
the call can read, after `qEntryAdd` with flag 0 `qEntryValue` of the name on
the resulting list returns the appended value when no entry of the original
list has that name, and the value of the earliest original entry with that
name when there is one. -/
theorem qEntryAdd_append_then_first_spec (h : Heap) (fresh first : Ptr) (l : List Entry)
    (fuel fuel2 : Nat) (name : String) (value : CStr) (v : String) (hl : IsList h first l)
    (hf : l.length < fuel) (hf2 : l.length + 1 < fuel2) (hname : name ≠ "")
    (hv : value.read h = some v) (hnull : fresh ≠ NULL) (hfresh : h fresh = none) :
    ∃ h', qEntryAdd h fresh fuel first name value 0 = some (fresh, h') ∧
      ((∀ y ∈ l, y.name ≠ name) →
        qEntryValue h' fuel2 (if first = NULL then fresh else first) name
          = some (some v)) ∧
      (∀ pre x post, l = pre ++ x :: post → x.name = name → (∀ y ∈ pre, y.name ≠ name) →
        qEntryValue h' fuel2 (if first = NULL then fresh else first) name
          = some (some x.value)) := by
  obtain ⟨h', hrun, hres, _, _⟩ :=
    qEntryAdd_new_eq value 0 hl hf hname hnull hfresh hv
      (Or.inl (by decide))
  have hlen : (l ++ [(⟨fresh, name, v⟩ : Entry)]).length < fuel2 := by simpa using hf2
  have hval : qEntryValue h' fuel2 (if first = NULL then fresh else first) name
      = some (((l ++ [(⟨fresh, name, v⟩ : Entry)]).find?
          (fun x => x.name = name)).map Entry.value) :=
    qEntryValue_loop_eq name hres hlen
  refine ⟨h', hrun, ?_, ?_⟩
  · intro habs
    rw [hval, find_first_of_split habs rfl]; rfl
  · rintro pre x post rfl hx hpre
    rw [hval, List.append_assoc, List.cons_append, find_first_of_split hpre hx]; rfl

/-- C3, amended, on the example list with a name that is not in it. -/
theorem qEntryAdd_append_then_first_spec_witness :
    IsList exampleHeap 1 exampleList ∧
    (∃ h', qEntryAdd exampleHeap 4 4 1 "lang" (CStr.str "en") 0 = some (4, h') ∧
      qEntryValue h' 5 1 "lang" = some (some "en")) := by
  refine ⟨exampleHeap_isList, ?_⟩
  obtain ⟨h', hrun, habs, _⟩ :=
    qEntryAdd_append_then_first_spec exampleHeap 4 1 exampleList 4 5 "lang" (CStr.str "en")
      "en" exampleHeap_isList (by decide) (by decide) (by decide) rfl (by decide) (by decide)
  exact ⟨h', hrun, habs (by decide)⟩

/-- C6: on every well-formed list without an entry of the (non-empty) name,
for any value the call can read, `qEntryAdd` in mode ReplaceIfExists (flag 1)
gives the same returned node and the same memory as mode Append (flag 0): the
allocated node is returned, the list afterwards is the original entries
followed by the new entry `(name, value)` as last entry, one entry longer. -/
theorem qEntryAdd_replace_absent_spec (h : Heap) (fresh first : Ptr) (l : List Entry)
    (fuel : Nat) (name : String) (value : CStr) (v : String) (hl : IsList h first l)
    (hf : l.length < fuel) (hname : name ≠ "") (hv : value.read h = some v)
    (habs : ∀ y ∈ l, y.name ≠ name) (hnull : fresh ≠ NULL) (hfresh : h fresh = none) :
    qEntryAdd h fresh fuel first name value 1 = qEntryAdd h fresh fuel first name value 0 ∧
    ∃ h', qEntryAdd h fresh fuel first name value 1 = some (fresh, h') ∧
      IsList h' (if first = NULL then fresh else first) (l ++ [⟨fresh, name, v⟩]) ∧
      (l ++ [(⟨fresh, name, v⟩ : Entry)]).length = l.length + 1 ∧
      (l ++ [(⟨fresh, name, v⟩ : Entry)]).getLast? = some ⟨fresh, name, v⟩ := by
  have hloop := qEntryAdd_replaceLoop_absent value hl habs hf
  obtain ⟨h', hrun, hres, _, _⟩ :=
    qEntryAdd_new_eq value 1 hl hf hname hnull hfresh hv (Or.inr habs)
  refine ⟨?_, h', hrun, hres, by simp, by simp⟩
  unfold qEntryAdd
  simp [hloop]

/-- C6, on the example list with a name that is not in it. -/
theorem qEntryAdd_replace_absent_spec_witness :
    IsList exampleHeap 1 exampleList ∧
    qEntryAdd exampleHeap 4 4 1 "lang" (CStr.str "en") 1
      = qEntryAdd exampleHeap 4 4 1 "lang" (CStr.str "en") 0 ∧
    (∃ h', qEntryAdd exampleHeap 4 4 1 "lang" (CStr.str "en") 1 = some (4, h') ∧
      IsList h' 1 (exampleList ++ [⟨4, "lang", "en"⟩])) := by
  obtain ⟨heq, h', hrun, hres, _⟩ :=
    qEntryAdd_replace_absent_spec exampleHeap 4 1 exampleList 4 "lang" (CStr.str "en") "en"
      exampleHeap_isList (by decide) (by decide) rfl (by decide) (by decide) (by decide)
  exact ⟨exampleHeap_isList, heq, h', hrun, hres⟩

/-- C7: with the empty name `qEntryAdd` returns `NULL` and leaves the whole
memory as it was, whatever the list, the value and the flag; so every list
holds the same entries, values and order, with the same length, afterwards. -/
theorem qEntryAdd_empty_name_spec (h : Heap) (fresh first : Ptr) (fuel : Nat)
    (value : CStr) (flag : Int) :
    qEntryAdd h fresh fuel first "" value flag = some (NULL, h) ∧
    ∀ l, IsList h first l →
      ∃ h', qEntryAdd h fresh fuel first "" value flag = some (NULL, h') ∧
        IsList h' first l := by
  have hrun : qEntryAdd h fresh fuel first "" value flag = some (NULL, h) := by
    unfold qEntryAdd
    rw [if_pos ((strcmp_empty_iff "").mpr rfl)]
  exact ⟨hrun, fun l hl => ⟨h, hrun, hl⟩⟩

/-- C7, on the example heap, for the three modes and another flag, with a value
outside the list and with the value string of a node. -/
theorem qEntryAdd_empty_name_spec_witness :
    qEntryAdd exampleHeap 4 4 1 "" (CStr.str "guest") 0 = some (NULL, exampleHeap) ∧
    qEntryAdd exampleHeap 4 4 1 "" (CStr.str "guest") 1 = some (NULL, exampleHeap) ∧
    qEntryAdd exampleHeap 4 4 1 "" (CStr.valueOf 2) 2 = some (NULL, exampleHeap) ∧
    qEntryAdd exampleHeap 4 4 1 "" (CStr.str "guest") (-7) = some (NULL, exampleHeap) :=
  ⟨(qEntryAdd_empty_name_spec exampleHeap 4 1 4 (CStr.str "guest") 0).1,
    (qEntryAdd_empty_name_spec exampleHeap 4 1 4 (CStr.str "guest") 1).1,
    (qEntryAdd_empty_name_spec exampleHeap 4 1 4 (CStr.valueOf 2) 2).1,
    (qEntryAdd_empty_name_spec exampleHeap 4 1 4 (CStr.str "guest") (-7)).1⟩

/-- C8: on every well-formed list, with a non-empty name and any value the call
can read, after `qEntryAdd` with flag 0 `qEntryValueLast` of the name on the
resulting list returns the appended value, whatever entries with the same name
and other values the list already had. -/
theorem qEntryAdd_append_then_last_spec (h : Heap) (fresh first : Ptr) (l : List Entry)
    (fuel fuel2 : Nat) (name : String) (value : CStr) (v : String) (hl : IsList h first l)
    (hf : l.length < fuel) (hf2 : l.length + 1 < fuel2) (hname : name ≠ "")
    (hv : value.read h = some v) (hnull : fresh ≠ NULL) (hfresh : h fresh = none) :
    ∃ h', qEntryAdd h fresh fuel first name value 0 = some (fresh, h') ∧
      qEntryValueLast h' fuel2 (if first = NULL then fresh else first) name
        = some (some v) := by
  obtain ⟨h', hrun, hres, _, _⟩ :=
    qEntryAdd_new_eq value 0 hl hf hname hnull hfresh hv
      (Or.inl (by decide))
  have hlen : (l ++ [(⟨fresh, name, v⟩ : Entry)]).length < fuel2 := by simpa using hf2
  have hvl := @qEntryValueLast_loop_eq h' name _ _ fuel2 none hres hlen
  refine ⟨h', hrun, ?_⟩
  unfold qEntryValueLast
  have hfind : (l ++ [(⟨fresh, name, v⟩ : Entry)]).reverse.find?
      (fun x => x.name = name) = some ⟨fresh, name, v⟩ :=
    @find_last_of_split name l [] _ (by simp) rfl
  rw [hvl, hfind]
  rfl

/-- C8, on the example list, which already has two `role` entries. -/
theorem qEntryAdd_append_then_last_spec_witness :
    IsList exampleHeap 1 exampleList ∧
    (∃ h', qEntryAdd exampleHeap 4 4 1 "role" (CStr.str "guest") 0 = some (4, h') ∧
      qEntryValueLast h' 5 1 "role" = some (some "guest")) := by
  obtain ⟨h', hrun, hres⟩ :=
    qEntryAdd_append_then_last_spec exampleHeap 4 1 exampleList 4 5 "role" (CStr.str "guest")
      "guest" exampleHeap_isList (by decide) (by decide) (by decide) rfl (by decide)
      (by decide)
  exact ⟨exampleHeap_isList, h', hrun, hres⟩

/-- C9: on every well-formed list whose length fits the `int` counter,
`qEntryNo` returns 0 exactly when no entry has the name, and otherwise the
1-based position of the first entry with the name; the result is between 0 and
the length of the list.  For the names `[a, b, a]` the position of `a` is 1. -/
theorem qEntryNo_spec (h : Heap) (first : Ptr) (l : List Entry) (fuel : Nat) (name : String)
    (hl : IsList h first l) (hf : l.length < fuel) (hint : (l.length : Int) < INT_MAX) :
    (∃ k, qEntryNo h fuel first name = some k ∧ 0 ≤ k ∧ k ≤ l.length) ∧
    (qEntryNo h fuel first name = some 0 ↔ ∀ y ∈ l, y.name ≠ name) ∧
    (∀ pre x post, l = pre ++ x :: post → x.name = name → (∀ y ∈ pre, y.name ≠ name) →
      qEntryNo h fuel first name = some ((pre.length : Int) + 1) ∧
      1 ≤ (pre.length : Int) + 1 ∧ (pre.length : Int) + 1 ≤ l.length) ∧
    (∀ k, qEntryNo h fuel first name = some k → k ≠ 0 →
      ∃ pre x post, l = pre ++ x :: post ∧ x.name = name ∧ (∀ y ∈ pre, y.name ≠ name) ∧
        k = (pre.length : Int) + 1) ∧
    (∀ a1 a2 a3 v1 v2 v3, l = [⟨a1, "a", v1⟩, ⟨a2, "b", v2⟩, ⟨a3, "a", v3⟩] → name = "a" →
      qEntryNo h fuel first name = some 1) := by
  have hno : qEntryNo h fuel first name
      = some (if l.findIdx (fun x => x.name = name) < l.length
          then 1 + (l.findIdx (fun x => x.name = name) : Int) else 0) :=
    qEntryNo_loop_eq name hl hf (by omega)
  have hfound : ∀ pre x post, l = pre ++ x :: post → x.name = name →
      (∀ y ∈ pre, y.name ≠ name) →
      qEntryNo h fuel first name = some ((pre.length : Int) + 1) := by
    rintro pre x post rfl hx hpre
    rw [hno, findIdx_of_split hpre hx, if_pos (by simp)]
    congr 1; omega
  have habsent : (∀ y ∈ l, y.name ≠ name) → qEntryNo h fuel first name = some 0 := by
    intro habs
    rw [hno, findIdx_of_absent habs, if_neg (Nat.lt_irrefl _)]
  refine ⟨?_, ⟨?_, habsent⟩, ?_, ?_, ?_⟩
  · by_cases hex : ∃ y ∈ l, y.name = name
    · obtain ⟨pre, x, post, hsplit, hpre, hx⟩ := split_at_first hex
      refine ⟨_, hfound pre x post hsplit hx hpre, by omega, ?_⟩
      rw [hsplit]
      simp only [List.length_append, List.length_cons, Nat.cast_add, Nat.cast_one]
      omega
    · refine ⟨0, habsent (fun y hy e => hex ⟨y, hy, e⟩), le_refl _, by omega⟩
  · intro hzero y hy hyn
    obtain ⟨pre, x, post, hsplit, hpre, hx⟩ := split_at_first ⟨y, hy, hyn⟩
    rw [hfound pre x post hsplit hx hpre] at hzero
    have := Option.some.inj hzero
    omega
  · intro pre x post hsplit hx hpre
    refine ⟨hfound pre x post hsplit hx hpre, by omega, ?_⟩
    rw [hsplit]
    simp only [List.length_append, List.length_cons, Nat.cast_add, Nat.cast_one]
    omega
  · intro k hk hk0
    by_cases hex : ∃ y ∈ l, y.name = name
    · obtain ⟨pre, x, post, hsplit, hpre, hx⟩ := split_at_first hex
      rw [hfound pre x post hsplit hx hpre] at hk
      exact ⟨pre, x, post, hsplit, hx, hpre, (Option.some.inj hk).symm⟩
    · rw [habsent (fun y hy e => hex ⟨y, hy, e⟩)] at hk
      exact absurd (Option.some.inj hk).symm hk0
  · rintro a1 a2 a3 v1 v2 v3 rfl rfl
    exact hfound [] ⟨a1, "a", v1⟩ [⟨a2, "b", v2⟩, ⟨a3, "a", v3⟩] rfl rfl (by simp)

/-- C9, on the example heap: the first `role` entry is the second entry. -/
theorem qEntryNo_spec_witness :
    IsList exampleHeap 1 exampleList ∧ ((exampleList.length : Int) < INT_MAX) ∧
    qEntryNo exampleHeap 4 1 "role" = some 2 := by
  have hspec := qEntryNo_spec exampleHeap 1 exampleList 4 "role" exampleHeap_isList
    (by decide) (by decide)
  exact ⟨exampleHeap_isList, by decide,
    (hspec.2.2.1 [⟨1, "user", "alice"⟩] ⟨2, "role", "admin"⟩ [⟨3, "role", "root"⟩] rfl rfl
      (by decide)).1⟩

/-- C10: on every well-formed list `qEntryReverse` returns the list of exactly
the same nodes, with their names and values, in the opposite order: the length
is the same, the entry at 1-based position `i` of the result is the entry at
position `n + 1 - i` of the input, the empty list gives the empty list, and the
returned pointer is the last node of the input. -/
theorem qEntryReverse_spec (h : Heap) (first : Ptr) (l : List Entry) (fuel : Nat)
    (hl : IsList h first l) (hf : l.length < fuel) :
    ∃ r h', qEntryReverse h fuel first = some (r, h') ∧ IsList h' r l.reverse ∧
      l.reverse.length = l.length ∧
      (∀ i, 1 ≤ i → i ≤ l.length → l.reverse[i - 1]? = l[l.length - i]?) ∧
      (l = [] → r = NULL) ∧
      (∀ x, l.getLast? = some x → r = x.addr) := by
  obtain ⟨r, h', hrun, hres, _⟩ := qEntryReverse_eq hl hf
  refine ⟨r, h', hrun, hres, List.length_reverse l, ?_, ?_, ?_⟩
  · intro i h1 h2
    rw [List.getElem?_reverse (by omega)]
    congr 1; omega
  · rintro rfl
    exact hres
  · intro x hx
    obtain ⟨l', rfl⟩ : ∃ l', l = l' ++ [x] := by
      rcases List.eq_nil_or_concat l with hnil | ⟨l', z, hz⟩
      · subst hnil; simp at hx
      · subst hz
        have hz : z = x := by simpa using hx
        exact ⟨l', by simp [hz]⟩
    rw [List.reverse_append] at hres
    exact hres.1

/-- C10, on the example heap. -/
theorem qEntryReverse_spec_witness :
    IsList exampleHeap 1 exampleList ∧
    (∃ h', qEntryReverse exampleHeap 4 1 = some (3, h') ∧
      IsList h' 3 [⟨3, "role", "root"⟩, ⟨2, "role", "admin"⟩, ⟨1, "user", "alice"⟩]) := by
  obtain ⟨r, h', hrun, hres, _, _, _, hlast⟩ :=
    qEntryReverse_spec exampleHeap 1 exampleList 4 exampleHeap_isList (by decide)
  have hr : r = 3 := hlast ⟨3, "role", "root"⟩ (by decide)
  subst hr
  exact ⟨exampleHeap_isList, h', hrun, hres⟩

/-- C11: on every well-formed list `qEntryReverse` applied twice returns the
original first-entry pointer, and the list is again the original entries, same
nodes, names and values in the original order; the whole memory is as it was
before the two calls. -/
theorem qEntryReverse_twice_spec (h : Heap) (first : Ptr) (l : List Entry)
    (fuel fuel2 : Nat) (hl : IsList h first l) (hf : l.length < fuel)
    (hf2 : l.length < fuel2) :
    ∃ r1 h1 h2, qEntryReverse h fuel first = some (r1, h1) ∧
      qEntryReverse h1 fuel2 r1 = some (first, h2) ∧
      IsList h1 r1 l.reverse ∧ IsList h2 first l ∧ h2 = h := by
  obtain ⟨r1, h1, hrun1, hres1, hfr1⟩ := qEntryReverse_eq hl hf
  have hf2' : l.reverse.length < fuel2 := by simpa using hf2
  obtain ⟨r2, h2, hrun2, hres2, hfr2⟩ := qEntryReverse_eq hres1 hf2'
  rw [List.reverse_reverse] at hres2
  have hr2 : r2 = first := IsList_ptr_eq hres2 hl
  subst hr2
  refine ⟨r1, h1, h2, hrun1, hrun2, hres1, hres2, ?_⟩
  funext a
  by_cases ha : ∃ x ∈ l, x.addr = a
  · obtain ⟨x, hx, rfl⟩ := ha
    exact IsList_heap_agree hl hres2 x hx
  · have hout : ∀ x ∈ l, x.addr ≠ a := fun x hx e => ha ⟨x, hx, e⟩
    rw [hfr2 a (fun x hx => hout x (List.mem_reverse.mp hx)), hfr1 a hout]

/-- C11, on the example heap. -/
theorem qEntryReverse_twice_spec_witness :
    IsList exampleHeap 1 exampleList ∧
    (∃ r1 h1 h2, qEntryReverse exampleHeap 4 1 = some (r1, h1) ∧
      qEntryReverse h1 4 r1 = some (1, h2) ∧ IsList h2 1 exampleList) := by
  obtain ⟨r1, h1, h2, hrun1, hrun2, _, hres, _⟩ :=
    qEntryReverse_twice_spec exampleHeap 1 exampleList 4 4 exampleHeap_isList
      (by decide) (by decide)
  exact ⟨exampleHeap_isList, r1, h1, h2, hrun1, hrun2, hres⟩

/-- C12: `qEntryRemove` with the empty name returns the first-entry pointer it
was given and leaves the memory as it was, whatever the list holds; and on
every well-formed list without an entry of the given name it does the same: the
same head, entries, values and order.  The name is any string the call can
read, a string of a node of the list included: nothing is freed. -/
theorem qEntryRemove_noop_spec (h : Heap) (first : Ptr) (l : List Entry) (fuel : Nat)
    (name : CStr) (n : String) (hl : IsList h first l) (hf : l.length < fuel)
    (hread : name.read h = some n) :
    qEntryRemove h fuel first (CStr.str "") = some (first, h) ∧
    (n = "" → qEntryRemove h fuel first name = some (first, h)) ∧
    ((∀ y ∈ l, y.name ≠ n) →
      qEntryRemove h fuel first name = some (first, h) ∧
      ∃ ret h', qEntryRemove h fuel first name = some (ret, h') ∧ ret = first ∧
        IsList h' ret l) := by
  have hempty : ∀ c : CStr, c.read h = some "" →
      qEntryRemove h fuel first c = some (first, h) := by
    intro c hc
    unfold qEntryRemove
    rw [hc]
    simp only []
    rw [if_pos ((strcmp_empty_iff "").mpr rfl)]
  refine ⟨hempty _ rfl, fun hn => hempty name (hn ▸ hread), fun habs => ?_⟩
  have hrun : qEntryRemove h fuel first name = some (first, h) := by
    by_cases hname : n = ""
    · exact hempty name (hname ▸ hread)
    · unfold qEntryRemove
      rw [hread]
      simp only []
      rw [if_neg (fun e => hname ((strcmp_empty_iff n).mp e))]
      exact qEntryRemove_loop_absent name first hread hl habs hf
  exact ⟨hrun, first, h, hrun, rfl, hl⟩

/-- C12, on the example heap: the empty name and a name that is not in the
list, here the value string `alice` of the first node. -/
theorem qEntryRemove_noop_spec_witness :
    IsList exampleHeap 1 exampleList ∧
    qEntryRemove exampleHeap 4 1 (CStr.str "") = some (1, exampleHeap) ∧
    qEntryRemove exampleHeap 4 1 (CStr.valueOf 1) = some (1, exampleHeap) := by
  have hspec := qEntryRemove_noop_spec exampleHeap 1 exampleList 4 (CStr.valueOf 1) "alice"
    exampleHeap_isList (by decide) (by decide)
  exact ⟨exampleHeap_isList, hspec.1, (hspec.2.2 (by decide)).1⟩

/-- C19: on every well-formed list, for every name, `qEntryValue` on the list
`qEntryReverse` returns gives what `qEntryValueLast` gives on the original
list, and `qEntryValueLast` on the reversed list gives what `qEntryValue` gives
on the original list; `NULL` results included. -/
theorem qEntryReverse_swaps_lookups_spec (h : Heap) (first : Ptr) (l : List Entry)
    (fuel fuel2 : Nat) (name : String) (hl : IsList h first l) (hf : l.length < fuel)
    (hf2 : l.length < fuel2) :
    ∃ r h' vf vl, qEntryReverse h fuel first = some (r, h') ∧
      qEntryValue h fuel first name = some vf ∧
      qEntryValueLast h fuel first name = some vl ∧
      qEntryValue h' fuel2 r name = some vl ∧
      qEntryValueLast h' fuel2 r name = some vf ∧
      qEntryValue h' fuel2 r name = qEntryValueLast h fuel first name ∧
      qEntryValueLast h' fuel2 r name = qEntryValue h fuel first name := by
  obtain ⟨r, h', hrun, hres, _⟩ := qEntryReverse_eq hl hf
  have hf2' : l.reverse.length < fuel2 := by simpa using hf2
  have h1 := qEntryValue_eq name hl hf
  have h2 := qEntryValueLast_eq name hl hf
  have h3 := qEntryValue_eq name hres hf2'
  have h4 := qEntryValueLast_eq name hres hf2'
  rw [List.reverse_reverse] at h4
  exact ⟨r, h', _, _, hrun, h1, h2, h3, h4, h3.trans h2.symm, h4.trans h1.symm⟩

/-- C19, on the example heap: after the reversal the first `role` is `root`
and the last is `admin`. -/
theorem qEntryReverse_swaps_lookups_spec_witness :
    IsList exampleHeap 1 exampleList ∧
    (∃ r h', qEntryReverse exampleHeap 4 1 = some (r, h') ∧
      qEntryValue h' 4 r "role" = some (some "root") ∧
      qEntryValueLast h' 4 r "role" = some (some "admin")) := by
  obtain ⟨r, h', vf, vl, hrun, _, _, _, _, h3, h4⟩ :=
    qEntryReverse_swaps_lookups_spec exampleHeap 1 exampleList 4 4 "role"
      exampleHeap_isList (by decide) (by decide)
  refine ⟨exampleHeap_isList, r, h', hrun, ?_, ?_⟩
  · rw [h3]; decide
  · rw [h4]; decide

/-- C20: on every well-formed list whose length fits the `int` counter, for
every name, `qEntryNo` returns 0 exactly when `qEntryValue` returns `NULL`;
when `qEntryNo` returns `k > 0` the entry at 1-based position `k` has the name
and its value is what `qEntryValue` returns; and `qEntryValueLast` returns
something else than `qEntryValue` only when an entry at a position greater than
`k` has the name too. -/
theorem qEntryNo_agrees_with_qEntryValue_spec (h : Heap) (first : Ptr) (l : List Entry)
    (fuel : Nat) (name : String) (hl : IsList h first l) (hf : l.length < fuel)
    (hint : (l.length : Int) < INT_MAX) :
    (∃ k vf vl, qEntryNo h fuel first name = some k ∧
      qEntryValue h fuel first name = some vf ∧
      qEntryValueLast h fuel first name = some vl) ∧
    (qEntryNo h fuel first name = some 0 ↔ qEntryValue h fuel first name = some none) ∧
    (∀ k, qEntryNo h fuel first name = some k → 0 < k →
      ∃ x, l[k.toNat - 1]? = some x ∧ x.name = name ∧
        qEntryValue h fuel first name = some (some x.value)) ∧
    (qEntryValueLast h fuel first name ≠ qEntryValue h fuel first name →
      ∃ k j x, qEntryNo h fuel first name = some k ∧ 0 < k ∧ k.toNat < j ∧
        l[j - 1]? = some x ∧ x.name = name) := by
  have hv := qEntryValue_eq name hl hf
  have hvl := qEntryValueLast_eq name hl hf
  by_cases hex : ∃ y ∈ l, y.name = name
  · -- the name is in the list
    obtain ⟨pre, x, post, hsplit, hpre, hx⟩ := split_at_first hex
    subst hsplit
    have hno := qEntryNo_found hl hf hint hpre hx
    have hfirst : qEntryValue h fuel first name = some (some x.value) := by
      rw [hv, find_first_of_split hpre hx]; rfl
    have hget : (pre ++ x :: post)[pre.length]? = some x := by
      rw [List.getElem?_append_right (Nat.le_refl _), Nat.sub_self,
        List.getElem?_cons_zero]
    refine ⟨⟨_, _, _, hno, hv, hvl⟩, ?_, ?_, ?_⟩
    · rw [hno, hfirst]
      constructor
      · intro e; have := Option.some.inj e; omega
      · intro e; simp at e
    · intro k hk _
      rw [hno] at hk
      have hk' : k = (pre.length : Int) + 1 := (Option.some.inj hk).symm
      refine ⟨x, ?_, hx, hfirst⟩
      have : k.toNat - 1 = pre.length := by omega
      rw [this]; exact hget
    · intro hne
      have hpost : ∃ y ∈ post, y.name = name := by
        by_contra hcon
        have hnone : ∀ y ∈ post, y.name ≠ name := fun y hy e => hcon ⟨y, hy, e⟩
        apply hne
        rw [hvl, find_last_of_split hnone hx, hfirst]; rfl
      obtain ⟨y, hy, hyn⟩ := hpost
      obtain ⟨i, hi, hiy⟩ := List.getElem_of_mem hy
      refine ⟨(pre.length : Int) + 1, pre.length + 1 + i + 1, y, hno, by omega, by omega,
        ?_, hyn⟩
      have hidx : pre.length + 1 + i + 1 - 1 = pre.length + (1 + i) := by omega
      rw [hidx, List.getElem?_append_right (Nat.le_add_right _ _)]
      have : pre.length + (1 + i) - pre.length = i + 1 := by omega
      rw [this, List.getElem?_cons_succ, List.getElem?_eq_getElem hi, hiy]
  · -- the name is not in the list
    have habs : ∀ y ∈ l, y.name ≠ name := fun y hy e => hex ⟨y, hy, e⟩
    have hno := qEntryNo_absent hl hf hint habs
    have hnone : l.find? (fun x => decide (x.name = name)) = none :=
      find_name_eq_none.mpr habs
    have hfirst : qEntryValue h fuel first name = some none := by
      rw [hv, hnone]; rfl
    have hlast : qEntryValueLast h fuel first name = some none := by
      rw [hvl]
      have : l.reverse.find? (fun x => decide (x.name = name)) = none :=
        find_name_eq_none.mpr (fun y hy => habs y (List.mem_reverse.mp hy))
      rw [this]; rfl
    refine ⟨⟨_, _, _, hno, hfirst, hlast⟩, ?_, ?_, ?_⟩
    · exact ⟨fun _ => hfirst, fun _ => hno⟩
    · intro k hk hk0
      rw [hno] at hk
      have := Option.some.inj hk
      omega
    · intro hne
      exact absurd (hlast.trans hfirst.symm) hne

/-- C20, on the example heap: `role` is first at position 2 with value `admin`,
and the last value `root` differs because position 3 has the name too. -/
theorem qEntryNo_agrees_with_qEntryValue_spec_witness :
    IsList exampleHeap 1 exampleList ∧ ((exampleList.length : Int) < INT_MAX) ∧
    (∃ k j x, qEntryNo exampleHeap 4 1 "role" = some k ∧ 0 < k ∧ k.toNat < j ∧
      exampleList[j - 1]? = some x ∧ x.name = "role") :=
  ⟨exampleHeap_isList, by decide,
    (qEntryNo_agrees_with_qEntryValue_spec exampleHeap 1 exampleList 4 "role"
      exampleHeap_isList (by decide) (by decide)).2.2.2 (by decide)⟩

/-- C13: "no entry has the empty string as its name" is an invariant of the
list operations: it holds for the empty list, and on every well-formed list
for which it holds it holds again for the list after `qEntryAdd` (every flag,
name and value, the rejected empty name included), after `qEntryRemove` (every
name) and after `qEntryReverse`.  The value of `qEntryAdd` and the name of
`qEntryRemove` are any strings the call can read to the end: outside the list,
or a string of a node that the call does not free before it reads it. -/
theorem no_empty_name_invariant_spec (h : Heap) (fresh first : Ptr) (l : List Entry)
    (fuel : Nat) (name : String) (value : CStr) (v : String) (flag : Int)
    (rname : CStr) (n : String) (hl : IsList h first l)
    (hf : l.length < fuel) (hinv : ∀ y ∈ l, y.name ≠ "") (hnull : fresh ≠ NULL)
    (hfresh : h fresh = none) (hv : value.read h = some v)
    (hvsafe : flag = 1 → ∀ pre x post, l = pre ++ x :: post → (∀ y ∈ pre, y.name ≠ name) →
      x.name = name → value ≠ CStr.valueOf x.addr)
    (hread : rname.read h = some n)
    (hnsafe : ∀ pre x post, l = pre ++ x :: post → x.name = n →
      (rname = CStr.nameOf x.addr ∨ rname = CStr.valueOf x.addr) → post = []) :
    (∀ l0, IsList h NULL l0 → ∀ y ∈ l0, y.name ≠ "") ∧
    (∃ r h' l', qEntryAdd h fresh fuel first name value flag = some (r, h') ∧
      IsList h' (if first = NULL then r else first) l' ∧ ∀ y ∈ l', y.name ≠ "") ∧
    (∃ r h' l', qEntryRemove h fuel first rname = some (r, h') ∧ IsList h' r l' ∧
      ∀ y ∈ l', y.name ≠ "") ∧
    (∃ r h' l', qEntryReverse h fuel first = some (r, h') ∧ IsList h' r l' ∧
      ∀ y ∈ l', y.name ≠ "") := by
  refine ⟨?_, ?_, ?_, ?_⟩
  · intro l0 hl0 y hy
    rw [IsList_null hl0] at hy
    simp at hy
  · by_cases hname : name = ""
    · -- the insert is rejected
      subst hname
      refine ⟨NULL, h, l, ?_, ?_, hinv⟩
      · unfold qEntryAdd
        rw [if_pos ((strcmp_empty_iff "").mpr rfl)]
      · by_cases hfirst : first = NULL
        · rw [if_pos hfirst]; rw [hfirst] at hl; exact hl
        · rw [if_neg hfirst]; exact hl
    · by_cases hrep : flag = 1 ∧ ∃ y ∈ l, y.name = name
      · -- the value of an existing entry is replaced
        obtain ⟨hflag, hex⟩ := hrep
        subst hflag
        obtain ⟨pre, x, post, hsplit, hpre, hx⟩ := split_at_first hex
        have hsafe' := hvsafe rfl pre x post hsplit hpre hx
        subst hsplit
        have hf' : pre.length < fuel := by
          simp only [List.length_append, List.length_cons] at hf
          omega
        obtain ⟨h', hrun, hres, _⟩ :=
          qEntryAdd_replace_eq fresh value hl hf' hname hpre hx hv hsafe'
        have hfirst : first ≠ NULL := by
          intro e
          have := IsList_null (e ▸ hl)
          simp at this
        refine ⟨x.addr, h', _, hrun, by rw [if_neg hfirst]; exact hres, ?_⟩
        intro y hy
        rcases List.mem_append.mp hy with hy | hy
        · exact hinv y (List.mem_append_left _ hy)
        · rcases List.mem_cons.mp hy with rfl | hy
          · exact hname
          · exact hinv y (List.mem_append_right _ (List.mem_cons_of_mem _ hy))
      · -- a new entry is appended
        have hflag : flag ≠ 1 ∨ ∀ y ∈ l, y.name ≠ name := by
          by_cases h1 : flag = 1
          · exact Or.inr (fun y hy e => hrep ⟨h1, y, hy, e⟩)
          · exact Or.inl h1
        obtain ⟨h', hrun, hres, _, _⟩ :=
          qEntryAdd_new_eq value flag hl hf hname hnull hfresh hv hflag
        refine ⟨fresh, h', _, hrun, hres, ?_⟩
        intro y hy
        rcases List.mem_append.mp hy with hy | hy
        · exact hinv y hy
        · rw [List.mem_singleton.mp hy]; exact hname
  · by_cases hname : n = ""
    · subst hname
      refine ⟨first, h, l, ?_, hl, hinv⟩
      unfold qEntryRemove
      rw [hread]
      simp only []
      rw [if_pos ((strcmp_empty_iff "").mpr rfl)]
    · obtain ⟨ret, h', hrun, hres, _, _⟩ := qEntryRemove_eq hl hf hread hname hnsafe
      exact ⟨ret, h', _, hrun, hres, fun y hy => hinv y (List.mem_filter.mp hy).1⟩
  · obtain ⟨r, h', hrun, hres, _⟩ := qEntryReverse_eq hl hf
    exact ⟨r, h', _, hrun, hres, fun y hy => hinv y (List.mem_reverse.mp hy)⟩

/-- C13, on the example heap, with a rejected insert and the removal of
`role`. -/
theorem no_empty_name_invariant_spec_witness :
    IsList exampleHeap 1 exampleList ∧ (∀ y ∈ exampleList, y.name ≠ "") ∧
    (∃ r h' l', qEntryAdd exampleHeap 4 4 1 "" (CStr.str "guest") 1 = some (r, h') ∧
      IsList h' 1 l' ∧ ∀ y ∈ l', y.name ≠ "") ∧
    (∃ r h' l', qEntryRemove exampleHeap 4 1 (CStr.str "role") = some (r, h') ∧
      IsList h' r l' ∧ ∀ y ∈ l', y.name ≠ "") := by
  have hspec :=
    no_empty_name_invariant_spec exampleHeap 4 1 exampleList 4 "" (CStr.str "guest") "guest" 1
      (CStr.str "role") "role" exampleHeap_isList (by decide) (by decide) (by decide)
      (by decide) rfl (fun _ _ _ _ _ _ _ e => by cases e) rfl
      (CStr_str_safe "role" "role" exampleList)
  obtain ⟨r, h', l', hrun, hres, hinv⟩ := hspec.2.1
  exact ⟨exampleHeap_isList, by decide, ⟨r, h', l', hrun, hres, hinv⟩, hspec.2.2.1⟩

/-- C14, as stated, fails: the value `12abc` of `size` is not numeric, it is no
base-10 integer, yet `qEntryiValue`, `qEntryiValueLast` and
`qEntryiValueNoCase` all return 12 and not 0: `atoi` reads the digits a value
starts with and ignores what follows them. -/
theorem qEntryiValue_counterexample :
    IsList mixedHeap 1 [⟨1, "size", "12abc"⟩] ∧
    qEntryValue mixedHeap 2 1 "size" = some (some "12abc") ∧
    Numeric "12abc" = false ∧
    qEntryiValue mixedHeap 2 1 "size" = some 12 ∧
    qEntryiValueLast mixedHeap 2 1 "size" = some 12 ∧
    qEntryiValueNoCase CaseInsensitiveCompare mixedHeap 2 1 "size" = some 12 ∧
    ¬ (∀ v, qEntryValue mixedHeap 2 1 "size" = some (some v) → Numeric v = false →
        qEntryiValue mixedHeap 2 1 "size" = some 0) := by
  refine ⟨mixedHeap_isList, by decide, by decide, by decide, by decide, by decide, ?_⟩
  intro hall
  have h0 := hall "12abc" (by decide) (by decide)
  have h12 : qEntryiValue mixedHeap 2 1 "size" = some 12 := by decide
  rw [h12] at h0
  exact absurd h0 (by decide)

/-- C14, amended: on every well-formed list, for every name, each of
`qEntryiValue`, `qEntryiValueLast` and `qEntryiValueNoCase` returns 0 when its
lookup (`qEntryValue`, `qEntryValueLast`, `qEntryValueNoCase`) returns `NULL`,
and otherwise returns `atoi` of the value the lookup found.  That is, for a
value made of white space, an optional sign, decimal digits and a rest that
does not go on the number, as every value is, the integer that the sign and the
digits write in base 10, when it fits an `int`: 0 when no digit stands there, as
for `abc`, so that a missing name and such a value give the same result; the
number itself for a numeric value, as 42 for `42` and -5 for `-5`; and the
leading number for a value that goes on after it, as 12 for `12abc`. -/
theorem qEntryiValue_spec (qStricmp : String → String → Int) (h : Heap) (first : Ptr)
    (l : List Entry) (fuel : Nat) (name : String) (hl : IsList h first l)
    (hf : l.length < fuel) :
    (∃ r, qEntryValue h fuel first name = some r) ∧
    (∃ r, qEntryValueLast h fuel first name = some r) ∧
    (∃ r, qEntryValueNoCase qStricmp h fuel first name = some r) ∧
    (qEntryValue h fuel first name = some none → qEntryiValue h fuel first name = some 0) ∧
    (qEntryValueLast h fuel first name = some none →
      qEntryiValueLast h fuel first name = some 0) ∧
    (qEntryValueNoCase qStricmp h fuel first name = some none →
      qEntryiValueNoCase qStricmp h fuel first name = some 0) ∧
    (∀ v, qEntryValue h fuel first name = some (some v) →
      qEntryiValue h fuel first name = atoi v) ∧
    (∀ v, qEntryValueLast h fuel first name = some (some v) →
      qEntryiValueLast h fuel first name = atoi v) ∧
    (∀ v, qEntryValueNoCase qStricmp h fuel first name = some (some v) →
      qEntryiValueNoCase qStricmp h fuel first name = atoi v) ∧
    (∀ (ws sgn : List Char) (ds : List Nat) (rest : List Char),
      (∀ c ∈ ws, isspace c = true) → (sgn = [] ∨ sgn = ['-'] ∨ sgn = ['+']) →
      (∀ d ∈ ds, d < 10) → (∀ c u, rest = c :: u → isdigit c = false) →
      (sgn = [] → ds = [] → ∀ c u, rest = c :: u → isspace c = false ∧ c ≠ '-' ∧ c ≠ '+') →
      INT_MIN ≤ decimalValue sgn ds → decimalValue sgn ds ≤ INT_MAX →
      atoi (String.mk (ws ++ sgn ++ ds.map digitChar ++ rest))
        = some (decimalValue sgn ds)) ∧
    (∀ v : String, ∃ (ws sgn : List Char) (ds : List Nat) (rest : List Char),
      v = String.mk (ws ++ sgn ++ ds.map digitChar ++ rest) ∧
      (∀ c ∈ ws, isspace c = true) ∧ (sgn = [] ∨ sgn = ['-'] ∨ sgn = ['+']) ∧
      (∀ d ∈ ds, d < 10) ∧ (∀ c u, rest = c :: u → isdigit c = false) ∧
      (sgn = [] → ds = [] →
        ∀ c u, rest = c :: u → isspace c = false ∧ c ≠ '-' ∧ c ≠ '+')) ∧
    (∀ (ws sgn rest : List Char),
      (∀ c ∈ ws, isspace c = true) → (sgn = [] ∨ sgn = ['-'] ∨ sgn = ['+']) →
      (∀ c u, rest = c :: u → isdigit c = false) →
      (sgn = [] → ∀ c u, rest = c :: u → isspace c = false ∧ c ≠ '-' ∧ c ≠ '+') →
      atoi (String.mk (ws ++ sgn ++ rest)) = some 0) ∧
    (∀ v, Numeric v = true →
      ∃ (sgn : List Char) (ds : List Nat),
        (sgn = [] ∨ sgn = ['-'] ∨ sgn = ['+']) ∧ ds ≠ [] ∧ (∀ d ∈ ds, d < 10) ∧
        v = String.mk (sgn ++ ds.map digitChar) ∧
        (INT_MIN ≤ decimalValue sgn ds → decimalValue sgn ds ≤ INT_MAX →
          atoi v = some (decimalValue sgn ds))) ∧
    (∀ n : Nat, (n : Int) ≤ INT_MAX →
      atoi (numeral (Nat.digits 10 n).reverse) = some (n : Int)) ∧
    (atoi "abc" = some 0 ∧ atoi "" = some 0 ∧ atoi "- 5" = some 0 ∧
      atoi "42" = some 42 ∧ atoi "-5" = some (-5) ∧ atoi "+7" = some 7 ∧
      atoi " \t42" = some 42 ∧ atoi "12abc" = some 12 ∧ atoi "3.9" = some 3 ∧
      atoi "-2147483648" = some INT_MIN ∧ atoi "2147483647" = some INT_MAX) := by
  have h1 := qEntryValue_eq name hl hf
  have h2 := qEntryValueLast_eq name hl hf
  have h3 : qEntryValueNoCase qStricmp h fuel first name = _ :=
    qEntryValueNoCase_loop_eq qStricmp name hl hf
  refine ⟨⟨_, h1⟩, ⟨_, h2⟩, ⟨_, h3⟩, ?_, ?_, ?_, ?_, ?_, ?_, atoi_parts, ?_, ?_, ?_, ?_, ?_⟩
  · intro e; simp [qEntryiValue, e]
  · intro e; simp [qEntryiValueLast, e]
  · intro e; simp [qEntryiValueNoCase, e]
  · intro v e; simp [qEntryiValue, e]
  · intro v e; simp [qEntryiValueLast, e]
  · intro v e; simp [qEntryiValueNoCase, e]
  · intro v
    obtain ⟨ws, sgn, ds, rest, hv, hrest⟩ := atoi_parts_exist v.data
    exact ⟨ws, sgn, ds, rest, by rw [← hv], hrest⟩
  · intro ws sgn rest hws hsgn hrest hbare
    have hval : decimalValue sgn [] = 0 := by
      unfold decimalValue
      by_cases hneg : sgn = ['-'] <;> simp [hneg]
    have hparts := atoi_parts ws sgn [] rest hws hsgn (by simp) hrest
      (fun hs _ => hbare hs) (by rw [hval]; decide) (by rw [hval]; decide)
    rw [hval] at hparts
    simpa using hparts
  · intro v hv
    obtain ⟨sgn, ds, hsgn, hne, hds, hveq⟩ := (Numeric_iff v).mp hv
    refine ⟨sgn, ds, hsgn, hne, hds, hveq, fun hmin hmax => ?_⟩
    have hparts := atoi_parts [] sgn ds [] (by simp) hsgn hds (by simp) (by simp) hmin hmax
    rw [hveq]
    simpa using hparts
  · intro n hn
    have hds : ∀ d ∈ (Nat.digits 10 n).reverse, d < 10 :=
      fun d hd => Nat.digits_lt_base (by decide) (List.mem_reverse.mp hd)
    have hval : Nat.ofDigits 10 (Nat.digits 10 n).reverse.reverse = n := by
      rw [List.reverse_reverse, Nat.ofDigits_digits]
    have := atoi_numeral (Nat.digits 10 n).reverse hds (by rw [hval]; exact hn)
    rw [hval] at this
    exact this
  · exact ⟨by decide, by decide, by decide, by decide, by decide, by decide, by decide,
      by decide, by decide, by decide, by decide⟩

/-- C14, amended, on the number heap: `port` is 42, the value `abc` of `host`
and the missing name `user` both give 0, and `PORT` is 42 without regard to
case. -/
theorem qEntryiValue_spec_witness :
    IsList numberHeap 1 numberList ∧
    qEntryiValue numberHeap 3 1 "port" = some 42 ∧
    qEntryiValue numberHeap 3 1 "host" = some 0 ∧
    qEntryiValue numberHeap 3 1 "user" = some 0 ∧
    qEntryiValueNoCase CaseInsensitiveCompare numberHeap 3 1 "PORT" = some 42 := by
  have hport := qEntryiValue_spec CaseInsensitiveCompare numberHeap 1 numberList 3 "port"
    numberHeap_isList (by decide)
  have hhost := qEntryiValue_spec CaseInsensitiveCompare numberHeap 1 numberList 3 "host"
    numberHeap_isList (by decide)
  have huser := qEntryiValue_spec CaseInsensitiveCompare numberHeap 1 numberList 3 "user"
    numberHeap_isList (by decide)
  have hPORT := qEntryiValue_spec CaseInsensitiveCompare numberHeap 1 numberList 3 "PORT"
    numberHeap_isList (by decide)
  refine ⟨numberHeap_isList, ?_, ?_, ?_, ?_⟩
  · exact (hport.2.2.2.2.2.2.1 "42" (by decide)).trans (by decide)
  · exact (hhost.2.2.2.2.2.2.1 "abc" (by decide)).trans (by decide)
  · exact huser.2.2.2.1 (by decide)
  · exact (hPORT.2.2.2.2.2.2.2.2.1 "42" (by decide)).trans (by decide)

/-- C15: on every well-formed list whose length fits the `int` counter, for
every destination name and flag: when the destination opens, `qEntrySave`
returns the number of entries of the list (0 for the empty list) and the file
of the destination holds exactly the two `#` header lines followed by one line
`name=v` per entry in the order of the list, `v` being the value as it is when
`encodevalue` is false and `qURLencode` of the value when it is true, the name
as it is in both cases; when the destination does not open it returns -1 and no
file is written.  The memory, and so the list, is as before, and so are the
other files. -/
theorem qEntrySave_spec (qURLencode : String → String) (gmt : String)
    (canOpen : String → Bool) (w : World) (first : Ptr) (l : List Entry) (fuel : Nat)
    (filename : String) (encodevalue : Bool) (hl : IsList w.heap first l)
    (hf : l.length < fuel) (hint : (l.length : Int) ≤ INT_MAX) :
    (canOpen filename = true →
      ∃ w', qEntrySave qURLencode gmt canOpen w fuel first filename encodevalue
          = some ((l.length : Int), w') ∧
        w'.heap = w.heap ∧ IsList w'.heap first l ∧
        w'.files filename = some
          ((l.map (fun x => x.name ++ "=" ++
              (if encodevalue = true then qURLencode x.value else x.value) ++ "\n")).foldl
            (fun c s => c ++ s)
            ("# automatically generated by qDecoder at " ++ gmt ++ ".\n" ++
              ("# " ++ filename ++ "\n"))) ∧
        (∀ p, p ≠ filename → w'.files p = w.files p)) ∧
    (canOpen filename = false →
      qEntrySave qURLencode gmt canOpen w fuel first filename encodevalue = some (-1, w)) ∧
    (canOpen filename = true → l = [] →
      ∃ w', qEntrySave qURLencode gmt canOpen w fuel first filename encodevalue
          = some (0, w') ∧
        w'.files filename = some ("# automatically generated by qDecoder at " ++ gmt ++
          ".\n" ++ ("# " ++ filename ++ "\n"))) := by
  have hopen := fun hcan : canOpen filename = true =>
    qEntrySave_open_eq qURLencode gmt canOpen w filename encodevalue hl hf hint hcan
  refine ⟨hopen, ?_, ?_⟩
  · intro hcan
    simp [qEntrySave, qfopen, hcan]
  · intro hcan hnil
    obtain ⟨w', hrun, _, _, hfile, _⟩ := hopen hcan
    subst hnil
    exact ⟨w', hrun, hfile⟩

/-- C15, on the example list, with the encoder of the spec. -/
theorem qEntrySave_spec_witness :
    IsList exampleWorld.heap 1 exampleList ∧ ((exampleList.length : Int) ≤ INT_MAX) ∧
    (∃ w', qEntrySave PercentEncode "Thu, 01 Jan 1970 00:00:00 GMT" (fun _ => true)
        exampleWorld 4 1 "conf" true = some (3, w') ∧
      w'.files "conf" = some ("# automatically generated by qDecoder at " ++
        "Thu, 01 Jan 1970 00:00:00 GMT.\n# conf\nuser=alice\nrole=admin\nrole=root\n")) := by
  obtain ⟨w', hrun, _, _, hfile, _⟩ :=
    (qEntrySave_spec PercentEncode "Thu, 01 Jan 1970 00:00:00 GMT" (fun _ => true)
      exampleWorld 1 exampleList 4 "conf" true exampleHeap_isList (by decide)
      (by decide)).1 rfl
  refine ⟨exampleHeap_isList, by decide, w', hrun, ?_⟩
  rw [hfile]
  decide

/-- C16, as stated, fails: the list with the one entry named `a`, newline, `b`
and valued `c` is saved with encoded values as the line `a` followed by the
line `b=c`, which the line format reads as the one pair `(b, c)`; whatever
list the parser builds from these pairs, `qEntryLoad` with decoding returns a
list with the pairs `[(b, c)]`, not the pairs of the saved list.  In the same
way the name `k=v` is read back as `k`, an entry named `#k` is read as a
comment, an entry with the empty name is not read, a destination name or a time
string with a newline puts an entry of its own into the file, and a destination
that does not open leaves no file to load. -/
theorem qEntrySave_qEntryLoad_roundtrip_counterexample :
    IsList newlineWorld.heap 1 [⟨1, "a\nb", "c"⟩] ∧
    savedPairs exampleGMT (fun _ => true) newlineWorld 2 1 "conf" = some [("b", "c")] ∧
    savedPairs exampleGMT (fun _ => true) (oneEntryWorld "k=v" "c") 2 1 "conf"
      = some [("k", "v=c")] ∧
    savedPairs exampleGMT (fun _ => true) (oneEntryWorld "#k" "c") 2 1 "conf" = some [] ∧
    savedPairs exampleGMT (fun _ => true) (oneEntryWorld "" "c") 2 1 "conf" = some [] ∧
    savedPairs exampleGMT (fun _ => true) (oneEntryWorld "k" "c") 2 1 "x\ny=z"
      = some [("y", "z"), ("k", "c")] ∧
    savedPairs "x\ny=z" (fun _ => true) (oneEntryWorld "k" "c") 2 1 "conf"
      = some [("y", "z."), ("k", "c")] ∧
    savedPairs exampleGMT (fun _ => false) (oneEntryWorld "k" "c") 2 1 "conf" = none ∧
    ∃ w1 c, qEntrySave PercentEncode exampleGMT (fun _ => true)
        newlineWorld 2 1 "conf" true = some (1, w1) ∧
      w1.files "conf" = some c ∧
      LoadKeyValueLines c = [("b", "c")] ∧
      ∀ (qfDecoder : World → String → Ptr × World) (l1 : List Entry) (fuel2 : Nat),
        IsList (qfDecoder w1 "conf").2.heap (qfDecoder w1 "conf").1 l1 →
        pairs l1 = LoadKeyValueLines c → l1.length < fuel2 →
        ∃ w2 l2, qEntryLoad qfDecoder PercentDecode w1 fuel2 "conf" true
            = some ((qfDecoder w1 "conf").1, w2) ∧
          IsList w2.heap (qfDecoder w1 "conf").1 l2 ∧
          pairs l2 = [("b", "c")] ∧
          pairs l2 ≠ pairs [⟨1, "a\nb", "c"⟩] := by
  refine ⟨newlineWorld_isList, by decide, by decide, by decide, by decide, by decide,
    by decide, by decide, ?_⟩
  obtain ⟨w1, hrun, _, _, hfile, _⟩ :=
    qEntrySave_open_eq PercentEncode exampleGMT (fun _ => true)
      newlineWorld "conf" true newlineWorld_isList (by decide : 1 < 2) (by decide) rfl
  have hparse : LoadKeyValueLines
      (([(⟨1, "a\nb", "c"⟩ : Entry)].map (fun x => x.name ++ "=" ++
          (if true = true then PercentEncode x.value else x.value) ++ "\n")).foldl
        (fun c s => c ++ s)
        ("# automatically generated by qDecoder at " ++ exampleGMT ++
          ".\n" ++ ("# " ++ "conf" ++ "\n"))) = [("b", "c")] := by
    decide
  refine ⟨w1, _, hrun, hfile, hparse, ?_⟩
  intro qfDecoder l1 fuel2 hl1 hp hf2
  obtain ⟨⟨w2, hload, hres, _⟩, _⟩ := qEntryLoad_eq qfDecoder PercentDecode w1 "conf" hl1 hf2
  have hpairs : pairs (l1.map (fun x => (⟨x.addr, x.name, PercentDecode x.value⟩ : Entry)))
      = [("b", "c")] := by
    rw [pairs_map_decode, hp, hparse]
    decide
  refine ⟨w2, _, hload, hres, hpairs, ?_⟩
  rw [hpairs]
  decide

/-- C16, amended: on every well-formed list whose names are not empty, have no
newline and no `=` and do not start with `#`, whatever its values, saved under
a destination name without a newline that opens, with a time string without a
newline: `qEntrySave` with `encodevalue` true writes a file that the line
format reads as exactly the names with the encoded values, in order, the two
header lines giving no entry, and `qEntryLoad` with `decodevalue` true, with
the parser of the spec and on any list a parser builds from these pairs,
returns a list with the name/value pairs of the saved list in the same order.
For every parser, every decoder and every list the parser leaves, `qEntryLoad`
with `decodevalue` true returns the same nodes with the same names in the same
order, every value replaced by its decoding, and with `decodevalue` false
returns the parser's pointer and state unchanged. -/
theorem qEntrySave_qEntryLoad_roundtrip_spec (gmt : String) (canOpen : String → Bool)
    (base : Ptr) (w : World) (first : Ptr) (l : List Entry) (fuel fuel2 : Nat)
    (filename : String) (hl : IsList w.heap first l) (hf : l.length < fuel)
    (hf2 : l.length < fuel2) (hint : (l.length : Int) ≤ INT_MAX)
    (hcan : canOpen filename = true) (hgmt : '\n' ∉ gmt.data)
    (hfile : '\n' ∉ filename.data)
    (hnames : ∀ x ∈ l, x.name ≠ "" ∧ '\n' ∉ x.name.data ∧ '=' ∉ x.name.data ∧
      x.name.data.head? ≠ some '#')
    (hbase : base ≠ NULL) :
    (∃ w1 c, qEntrySave PercentEncode gmt canOpen w fuel first filename true
        = some ((l.length : Int), w1) ∧
      w1.files filename = some c ∧
      LoadKeyValueLines c = l.map (fun x => (x.name, PercentEncode x.value)) ∧
      (∃ w2 l2, qEntryLoad (qfDecoderAt base) PercentDecode w1 fuel2 filename true
          = some ((qfDecoderAt base w1 filename).1, w2) ∧
        IsList w2.heap (qfDecoderAt base w1 filename).1 l2 ∧ pairs l2 = pairs l) ∧
      (∀ (qfDecoder : World → String → Ptr × World) (l1 : List Entry),
        IsList (qfDecoder w1 filename).2.heap (qfDecoder w1 filename).1 l1 →
        pairs l1 = LoadKeyValueLines c →
        ∃ w2 l2, qEntryLoad qfDecoder PercentDecode w1 fuel2 filename true
            = some ((qfDecoder w1 filename).1, w2) ∧
          IsList w2.heap (qfDecoder w1 filename).1 l2 ∧ pairs l2 = pairs l)) ∧
    (∀ v, PercentDecode (PercentEncode v) = v ∧ '\n' ∉ (PercentEncode v).data) ∧
    (∀ (qfDecoder : World → String → Ptr × World) (qURLdecode : String → String)
        (w0 : World) (l1 : List Entry),
      IsList (qfDecoder w0 filename).2.heap (qfDecoder w0 filename).1 l1 →
      l1.length < fuel2 →
      (∃ w2, qEntryLoad qfDecoder qURLdecode w0 fuel2 filename true
          = some ((qfDecoder w0 filename).1, w2) ∧
        IsList w2.heap (qfDecoder w0 filename).1
          (l1.map (fun x => ⟨x.addr, x.name, qURLdecode x.value⟩)) ∧
        w2.files = (qfDecoder w0 filename).2.files) ∧
      qEntryLoad qfDecoder qURLdecode w0 fuel2 filename false
        = some ((qfDecoder w0 filename).1, (qfDecoder w0 filename).2)) := by
  refine ⟨?_, fun v => ⟨PercentDecode_PercentEncode v, PercentEncode_no_newline v⟩,
    fun qfDecoder qURLdecode w0 l1 hl1 hlen =>
      qEntryLoad_eq qfDecoder qURLdecode w0 filename hl1 hlen⟩
  obtain ⟨w1, hrun, _, _, hcontent, _⟩ :=
    qEntrySave_open_eq PercentEncode gmt canOpen w filename true hl hf hint hcan
  have hparse := LoadKeyValueLines_saved PercentEncode gmt filename l hgmt hfile hnames
    (fun x _ => PercentEncode_no_newline x.value)
  simp only [if_true] at hcontent
  have hgen : ∀ (qfDecoder : World → String → Ptr × World) (l1 : List Entry),
      IsList (qfDecoder w1 filename).2.heap (qfDecoder w1 filename).1 l1 →
      pairs l1 = LoadKeyValueLines
        ((l.map (fun x => x.name ++ "=" ++ PercentEncode x.value ++ "\n")).foldl
          (fun c s => c ++ s)
          ("# automatically generated by qDecoder at " ++ gmt ++ ".\n" ++
            ("# " ++ filename ++ "\n"))) →
      ∃ w2 l2, qEntryLoad qfDecoder PercentDecode w1 fuel2 filename true
          = some ((qfDecoder w1 filename).1, w2) ∧
        IsList w2.heap (qfDecoder w1 filename).1 l2 ∧ pairs l2 = pairs l := by
    intro qfDecoder l1 hl1 hp
    have hlen : l1.length < fuel2 := by
      have := congrArg List.length hp
      rw [hparse] at this
      simp only [pairs, List.length_map] at this
      omega
    obtain ⟨⟨w2, hload, hres, _⟩, _⟩ :=
      qEntryLoad_eq qfDecoder PercentDecode w1 filename hl1 hlen
    refine ⟨w2, _, hload, hres, ?_⟩
    rw [pairs_map_decode, hp, hparse, List.map_map]
    unfold pairs
    apply List.map_congr_left
    intro x _
    simp [PercentDecode_PercentEncode]
  refine ⟨w1, _, hrun, hcontent, hparse, ?_, hgen⟩
  obtain ⟨l1, hl1, hp⟩ := qfDecoderAt_isList base w1 filename _ hbase hcontent
  exact hgen (qfDecoderAt base) l1 hl1 hp

/-- C16, amended, on the round-trip example: `user=alice` and `x=a b` are
saved, `a b` as `a%20b`, read by the parser of the spec and decoded. -/
theorem qEntrySave_qEntryLoad_roundtrip_spec_witness :
    IsList spaceWorld.heap 1 spaceList ∧
    (∃ w1 w2 l2,
      qEntrySave PercentEncode exampleGMT (fun _ => true) spaceWorld 3 1
        "conf" true = some (2, w1) ∧
      w1.files "conf" = some ("# automatically generated by qDecoder at " ++
        "Thu, 01 Jan 1970 00:00:00 GMT.\n# conf\nuser=alice\nx=a%20b\n") ∧
      qEntryLoad (qfDecoderAt 11) PercentDecode w1 3 "conf" true = some (11, w2) ∧
      IsList w2.heap 11 l2 ∧ pairs l2 = [("user", "alice"), ("x", "a b")]) := by
  refine ⟨spaceWorld_isList, ?_⟩
  obtain ⟨⟨w1, c, hrun, hfile, hparse, _, hload⟩, _⟩ :=
    qEntrySave_qEntryLoad_roundtrip_spec exampleGMT (fun _ => true) 11 spaceWorld 1 spaceList
      3 3 "conf" spaceWorld_isList (by decide) (by decide) (by decide) rfl (by decide)
      (by decide) (by decide) (by decide)
  have hpairs : LoadKeyValueLines c = [("user", "alice"), ("x", "a%20b")] := by
    rw [hparse]; decide
  have hdecoder : qfDecoderAt 11 w1 "conf"
      = ((buildList w1.heap 11 [("user", "alice"), ("x", "a%20b")]).1,
          { w1 with heap := (buildList w1.heap 11 [("user", "alice"), ("x", "a%20b")]).2 }) := by
    simp only [qfDecoderAt, hfile, hpairs]
  have hfirst : (qfDecoderAt 11 w1 "conf").1 = 11 := by rw [hdecoder]; rfl
  have hl1 : IsList (qfDecoderAt 11 w1 "conf").2.heap (qfDecoderAt 11 w1 "conf").1
      [⟨11, "user", "alice"⟩, ⟨12, "x", "a%20b"⟩] := by
    rw [hdecoder]
    simp [IsList, LSeg, buildList, store, NULL]
  obtain ⟨w2, l2, hrun2, hres, hp2⟩ := hload (qfDecoderAt 11) _ hl1 (by rw [hpairs]; rfl)
  rw [hfirst] at hrun2 hres
  have hcontent : c = "# automatically generated by qDecoder at " ++
      "Thu, 01 Jan 1970 00:00:00 GMT.\n# conf\nuser=alice\nx=a%20b\n" := by
    have hsave := qEntrySave_open_eq PercentEncode exampleGMT
      (fun _ => true) spaceWorld "conf" true spaceWorld_isList (by decide : 2 < 3)
      (by decide) rfl
    obtain ⟨w1', hrun', _, _, hfile', _⟩ := hsave
    rw [hrun] at hrun'
    have hw : w1 = w1' := by
      have := Option.some.inj hrun'
      exact (Prod.mk.inj this).2
    subst hw
    rw [hfile] at hfile'
    rw [Option.some.inj hfile']
    decide
  exact ⟨w1, w2, l2, hrun, hcontent ▸ hfile, hrun2, hres, hp2.trans (by decide)⟩

end QDecoder
